import Mathlib

/-! # git-history-search: a shallow embedding of `git-history-search.go`

The program reads a replacement map, runs `git log --all --full-history -p -U0`
and scans the output line by line, recording which search terms match which
file contents, file names and commit messages.

Modelling conventions

* A Go `string` is modelled as a list of Unicode code points (`Str`).  On
  valid UTF-8 text the byte-level functions of package `strings` that the
  program calls (`HasPrefix`, `Contains`, `Split`, `TrimPrefix`, `Join`) agree
  with the same functions on code points.
* `strings.ToLower` maps `unicode.ToLower` over the runes of its argument.  The
  case table of the Go runtime is not part of the repository: the per-rune
  function is a parameter `lower` of every definition that depends on it.
* A Go string need not be valid UTF-8.  The match test is therefore also
  modelled on byte strings (`Bytes`, `stringContainsBytes`), with
  `strings.ToLower` as the library computes it on stray bytes, and proved equal
  to the match test on code points for the bytes of a text.
* A Go `map[string]V` is an association list with unique keys (`GoMap V`), a
  `map[string]struct{}` a duplicate-free list of keys (`GoSet`).  The order of
  the list carries no meaning for the program; where the program ranges over a
  map, the order in which the runtime visits the keys is an explicit argument.
-/

namespace GitHistorySearch

/-- A Go string, as the list of its code points. -/
abbrev Str := List Char

/-! ## Package `strings` -/

/-- `strings.HasPrefix(s, prefix)`. -/
def hasPrefix (s pre : Str) : Bool :=
  pre.isPrefixOf s

/-- `strings.Contains(s, substr)`: scan `s` for the first position at which
`substr` starts (`strings.Index(s, substr) >= 0`). -/
def contains : Str → Str → Bool
  | [], substr => hasPrefix [] substr
  | c :: s, substr => hasPrefix (c :: s) substr || contains s substr

/-- `strings.TrimPrefix(s, prefix)`. -/
def trimPrefix (s pre : Str) : Str :=
  if hasPrefix s pre then s.drop pre.length else s

/-- The scanning loop of `strings.Split` for a non-empty separator.  `skip` is
the number of characters of an already recognised separator that are still
to be passed over, `cur` the piece collected since the last separator. -/
def splitAux (sep : Str) : Str → Nat → Str → List Str
  | [], _, cur => [cur]
  | _ :: rest, skip + 1, cur => splitAux sep rest skip cur
  | c :: rest, 0, cur =>
    if hasPrefix (c :: rest) sep then cur :: splitAux sep rest (sep.length - 1) []
    else splitAux sep rest 0 (cur ++ [c])

/-- `strings.Split(s, sep)`: the pieces of `s` between the successive leftmost,
non-overlapping occurrences of `sep`; an empty `sep` splits after each code
point. -/
def split (s sep : Str) : List Str :=
  if sep = [] then s.map (fun c => [c]) else splitAux sep s 0 []

/-- The expression `parts[len(parts)-1]`.  `strings.Split` with a non-empty
separator never returns an empty slice, so the index is in range at both call
sites; the default is never taken there. -/
def lastPart (parts : List Str) : Str :=
  parts.getLastD []

/-- `strings.ToLower(s)` on a text, that is on valid UTF-8, with `lower` the
per-rune `unicode.ToLower`.  On an arbitrary byte string the function is
`toLowerBytes`; the two agree on the bytes of a text (`toLowerBytes_utf8`). -/
def toLower (lower : Char → Char) (s : Str) : Str :=
  s.map lower

/-- `strings.Join(elems, sep)`. -/
def join : List Str → Str → Str
  | [], _ => []
  | [a], _ => a
  | a :: b :: rest, sep => a ++ sep ++ join (b :: rest) sep

/-! ## Maps and sets -/

/-- A Go `map[string]struct{}`: the keys, without duplicates. -/
abbrev GoSet := List Str

/-- A Go `map[string]V`: key/value pairs with pairwise distinct keys. -/
abbrev GoMap (V : Type) := List (Str × V)

/-- The statement `s[k] = struct{}{}`. -/
def setInsert (s : GoSet) (k : Str) : GoSet :=
  if k ∈ s then s else s ++ [k]

/-- The expression `v, ok := m[k]`. -/
def mapGet {V : Type} : GoMap V → Str → Option V
  | [], _ => none
  | (k', v) :: rest, k => if k' = k then some v else mapGet rest k

/-- The statement `m[k] = v`. -/
def mapSet {V : Type} : GoMap V → Str → V → GoMap V
  | [], k, v => [(k, v)]
  | (k', v') :: rest, k, v =>
    if k' = k then (k, v) :: rest else (k', v') :: mapSet rest k v

/-- The keys of a map. -/
def mapKeys {V : Type} (m : GoMap V) : List Str :=
  m.map Prod.fst

/-! ## The functions of `git-history-search.go` -/

/-- Function `stringContains(str, substr, ci)`. -/
def stringContains (lower : Char → Char) (str substr : Str) (ci : Bool) : Bool :=
  if ci then contains (toLower lower str) (toLower lower substr)
  else contains str substr

/-- Function `addMatch(fileMap, file, term)`. -/
def addMatch (fileMap : GoMap GoSet) (file term : Str) : GoMap GoSet :=
  match mapGet fileMap file with
  | none => mapSet fileMap file (setInsert [] term)
  | some terms => mapSet fileMap file (setInsert terms term)

/-- Comparison of two strings as `sort.Strings` orders them: lexicographic. -/
def strLe : Str → Str → Bool
  | [], _ => true
  | _ :: _, [] => false
  | a :: as, b :: bs => a.toNat < b.toNat || (a.toNat == b.toNat && strLe as bs)

/-- Insertion of one string into an ascending list. -/
def sortedInsert (x : Str) : List Str → List Str
  | [] => [x]
  | y :: ys => if strLe x y then x :: y :: ys else y :: sortedInsert x ys

/-- `sort.Strings(terms)`: the ascending rearrangement of `terms`. -/
def sortStrings (terms : List Str) : List Str :=
  terms.foldr sortedInsert []

/-- Function `getKeysString(m)`.  `visit` is the order in which `range m`
delivers the keys of the set `m`. -/
def getKeysString (visit : List Str) : Str :=
  join (sortStrings visit) ", ".toList

/-- The variables of `main` that the scanning loop reads and writes. -/
structure State where
  curFile : Str
  curCommit : Str
  matchingFiles : GoMap Bool
  matchingContents : GoMap GoSet
  matchingFileNames : GoMap GoSet
  matchingCommits : GoMap GoSet
deriving DecidableEq

/-- The state before the first line (`main`, lines 49-54). -/
def State.init : State :=
  { curFile := [], curCommit := [], matchingFiles := [], matchingContents := [],
    matchingFileNames := [], matchingCommits := [] }

/-- The first `if` of the loop body (`main`, lines 57-64): the file boundary.
Returns the state and the value of `isFileName`. -/
def parseDiff (st : State) (line : Str) : State × Bool :=
  if hasPrefix line "diff --git".toList then
    let parts := split line " ".toList
    let filename := lastPart parts
    let filename := trimPrefix filename "b/".toList
    ({ st with curFile := filename, curCommit := [] }, true)
  else (st, false)

/-- The second `if` of the loop body (`main`, lines 65-69): the commit header. -/
def parseCommit (st : State) (line : Str) : State :=
  if hasPrefix line "commit ".toList then
    let parts := split line " ".toList
    { st with curCommit := lastPart parts, curFile := [] }
  else st

/-- The context update of one line (`main`, lines 56-69): both tests in the
order of the source, with the flag `isFileName`. -/
def parseLine (st : State) (line : Str) : State × Bool :=
  let r := parseDiff st line
  (parseCommit r.1 line, r.2)

/-- The body of the loop over the terms (`main`, lines 71-83) for the term
`old`. -/
def recordTerm (lower : Char → Char) (ci : Bool) (line : Str) (isFileName : Bool)
    (st : State) (old : Str) : State :=
  if stringContains lower line old ci then
    let st1 :=
      if st.curFile ≠ [] then
        let st0 := { st with matchingFiles := mapSet st.matchingFiles st.curFile false }
        if isFileName then
          { st0 with matchingFileNames := addMatch st0.matchingFileNames st0.curFile old }
        else
          { st0 with matchingContents := addMatch st0.matchingContents st0.curFile old }
      else st
    if st1.curCommit ≠ [] then
      { st1 with matchingCommits := addMatch st1.matchingCommits st1.curCommit old }
    else st1
  else st

/-- The body of the loop over the lines (`main`, lines 56-84).  `terms` is the
order in which `range replaceMap` delivers the keys on this line. -/
def processLine (lower : Char → Char) (ci : Bool) (st : State) (line : Str)
    (terms : List Str) : State :=
  let r := parseLine st line
  terms.foldl (recordTerm lower ci line r.2) r.1

/-- The loop over the lines (`main`, lines 55-85), started in `st`.  Each line
comes with the order in which the terms are visited on it. -/
def scanFrom (lower : Char → Char) (ci : Bool) (st : State) (input : List (Str × List Str)) :
    State :=
  input.foldl (fun s p => processLine lower ci s p.1 p.2) st

/-- The loop over the lines from the initial state. -/
def scan (lower : Char → Char) (ci : Bool) (input : List (Str × List Str)) : State :=
  scanFrom lower ci State.init input

/-- The scan of the text `out` (`strings.Split(string(out), "\n")`) when the
terms are visited in the order `terms` on every line. -/
def scanText (lower : Char → Char) (ci : Bool) (terms : List Str) (out : Str) : State :=
  scan lower ci ((split out "\n".toList).map (fun l => (l, terms)))

/-- The body of the loop over the lines of the replacement file (`main`,
lines 33-40). -/
def replaceMapStep (replaceMap : GoMap Str) (line : Str) : GoMap Str :=
  if line = [] then replaceMap
  else
    let parts := split line "==>".toList
    if parts.length ≠ 2 then replaceMap
    else mapSet replaceMap (parts.getD 0 []) (parts.getD 1 [])

/-- The loop that reads the replacement file (`main`, lines 32-41). -/
def loadReplaceMap (contents : Str) : GoMap Str :=
  (split contents "\n".toList).foldl replaceMapStep []

/-- The number of positions of `s` at which `sep` starts. -/
def occurrences (sep : Str) : Str → Nat
  | [] => if hasPrefix [] sep then 1 else 0
  | c :: s => (if hasPrefix (c :: s) sep then 1 else 0) + occurrences sep s

/-! ## The classifier and the planner -/

/-- The scanning loop of `strings.ReplaceAll` for a non-empty `old`: the
leftmost, non-overlapping occurrences of `old` are replaced by `new`.  `skip`
is the number of characters of an already replaced occurrence that are still
to be passed over. -/
def replaceAux (old new : Str) : Str → Nat → Str
  | [], _ => []
  | _ :: rest, skip + 1 => replaceAux old new rest skip
  | c :: rest, 0 =>
    if hasPrefix (c :: rest) old then new ++ replaceAux old new rest (old.length - 1)
    else c :: replaceAux old new rest 0

/-- `strings.ReplaceAll(s, old, new)`; an empty `old` matches before the first
code point and after each code point. -/
def replaceAll (s old new : Str) : Str :=
  if old = [] then new ++ s.flatMap (fun c => c :: new) else replaceAux old new s 0

/-- The loop that classifies the files (`main`, lines 86-92).  `notExist f`
tells whether `os.Stat(f)` fails with `os.ErrNotExist`; `visit` is the order in
which `range matchingFiles` delivers the keys. -/
def classify (notExist : Str → Bool) (visit : List Str) (matchingFiles : GoMap Bool) :
    GoMap Bool :=
  visit.foldl (fun m filename => mapSet m filename (notExist filename)) matchingFiles

/-- The expression `matchingFiles[filename]`: `false` for a missing key. -/
def isDeleted (matchingFiles : GoMap Bool) (filename : Str) : Bool :=
  (mapGet matchingFiles filename).getD false

/-- The candidate new name of a file (`main`, lines 106-111).  `pairs` is the
replacement map in the order in which `range replaceMap` delivers it. -/
def renameCandidate (pairs : List (Str × Str)) (filename : Str) : Str :=
  pairs.foldl
    (fun newFile p => if contains filename p.1 then replaceAll newFile p.1 p.2 else newFile)
    filename

/-- The text of `fmt.Printf("  --path-rename %s:%s \\\n", filename, newFile)`. -/
def renameLine (filename newFile : Str) : Str :=
  "  --path-rename ".toList ++ filename ++ ":".toList ++ newFile ++ " \\\n".toList

/-- What lines 106-114 of `main` print for one file. -/
def renameDirective (pairs : List (Str × Str)) (filename : Str) : List Str :=
  let newFile := renameCandidate pairs filename
  if newFile ≠ filename then [renameLine filename newFile] else []

/-- The body of the loop over the files with a name match (`main`, lines
98-114).  The first component is `gitFilterRepoPrinted`, the second what has
been printed so far. -/
def renameStep (pairs : List (Str × Str)) (matchingFiles : GoMap Bool)
    (acc : Bool × List Str) (filename : Str) : Bool × List Str :=
  if isDeleted matchingFiles filename then acc
  else
    let acc1 := if !acc.1 then (true, acc.2 ++ ["git-filter-repo \\\n".toList]) else acc
    (acc1.1, acc1.2 ++ renameDirective pairs filename)

/-- The name remediation (`main`, lines 95-116). -/
def nameRemediation (pairs : List (Str × Str)) (matchingFiles : GoMap Bool)
    (matchingFileNames : GoMap GoSet) : List Str :=
  if matchingFileNames.length > 0 then
    ((mapKeys matchingFileNames).foldl (renameStep pairs matchingFiles) (false, [])).2
  else []

/-- The type `fileMatch`. -/
structure FileMatch where
  name : Str
  terms : GoSet
deriving DecidableEq

/-- Method `termsString`. -/
def FileMatch.termsString (s : FileMatch) : Str :=
  getKeysString s.terms

/-- The loop that sorts the files with a content match into `deletedFiles`
and `notDeletedFiles` (`main`, lines 118-130). -/
def partitionFiles (matchingFiles : GoMap Bool) (matchingContents : GoMap GoSet) :
    List FileMatch × List FileMatch :=
  matchingContents.foldl
    (fun acc e =>
      let fm : FileMatch := { name := e.1, terms := e.2 }
      if isDeleted matchingFiles e.1 then (acc.1 ++ [fm], acc.2) else (acc.1, acc.2 ++ [fm]))
    ([], [])

/-- The text of `fmt.Printf("  %s matches %s\n", name, terms)`. -/
def matchLine (name terms : Str) : Str :=
  "  ".toList ++ name ++ " matches ".toList ++ terms ++ "\n".toList

/-- The text of `fmt.Printf("   --path %s \\\n", name)`. -/
def pathLine (name : Str) : Str :=
  "   --path ".toList ++ name ++ " \\\n".toList

/-- The report of the deleted files (`main`, lines 131-140). -/
def deletedReport (deletedFiles : List FileMatch) : List Str :=
  if deletedFiles.length > 0 then
    ["Deleted files:\n".toList]
      ++ deletedFiles.map (fun fm => matchLine fm.name fm.termsString)
      ++ ["git-filter-repo --invert-paths \\\n".toList]
      ++ deletedFiles.map (fun fm => pathLine fm.name)
  else []

/-- The text of `fmt.Printf("git-filter-repo --replace-text %s\n", replaceFile)`. -/
def replaceTextLine (replaceFile : Str) : Str :=
  "git-filter-repo --replace-text ".toList ++ replaceFile ++ "\n".toList

/-- The report of the files that are not deleted (`main`, lines 141-149). -/
def notDeletedReport (replaceFile : Str) (notDeletedFiles : List FileMatch) : List Str :=
  if notDeletedFiles.length > 0 then
    ["Not deleted files:\n".toList]
      ++ notDeletedFiles.map (fun fm => matchLine fm.name fm.termsString)
      ++ (if replaceFile ≠ [] then [replaceTextLine replaceFile] else [])
  else []

/-- The report of the commits (`main`, lines 150-158). -/
def commitReport (replaceFile : Str) (matchingCommits : GoMap GoSet) : List Str :=
  if matchingCommits.length > 0 then
    ["Matching commits:\n".toList]
      ++ matchingCommits.map (fun e => matchLine e.1 (getKeysString e.2))
      ++ (if replaceFile ≠ [] then
          ["git-filter-repo --replace-message ".toList ++ replaceFile ++ "\n".toList]
        else [])
  else []

/-- Everything `main` prints after the classification (lines 94-158), one
entry for each call of `fmt.Printf`.  The maps are given in the order in which
`range` delivers their entries. -/
def plan (replaceFile : Str) (pairs : List (Str × Str)) (matchingFiles : GoMap Bool)
    (matchingFileNames matchingContents matchingCommits : GoMap GoSet) : List Str :=
  nameRemediation pairs matchingFiles matchingFileNames
    ++ deletedReport (partitionFiles matchingFiles matchingContents).1
    ++ notDeletedReport replaceFile (partitionFiles matchingFiles matchingContents).2
    ++ commitReport replaceFile matchingCommits

/-- The output of `main` from the scanning loop on (lines 49-158): `replaceFile`
is the first argument of the command line (empty under `--lookup`),
`replaceMap` the replacement map, `out` the output of `git log`, `notExist` the
test of the working tree.  Every map is visited in the order of its list. -/
def mainPlan (lower : Char → Char) (ci : Bool) (notExist : Str → Bool)
    (replaceFile : Str) (replaceMap : GoMap Str) (out : Str) : List Str :=
  let st := scanText lower ci (mapKeys replaceMap) out
  let files := classify notExist (mapKeys st.matchingFiles) st.matchingFiles
  plan replaceFile replaceMap files st.matchingFileNames st.matchingContents st.matchingCommits

/-- Two association lists that stand for the same Go map of sets: they have the
same keys, and each key has the same set of members in both. -/
def SameRecord (m1 m2 : GoMap GoSet) : Prop :=
  ∀ k : Str, (mapGet m1 k).map List.toFinset = (mapGet m2 k).map List.toFinset

/-! ## The match test on byte strings

A Go string is a sequence of bytes, and it need not be valid UTF-8: a search
term or a line of `git log` may hold stray bytes.  The functions below model
the match test on byte strings, with `strings.ToLower` as the Go library
computes it; `utf8` ties the byte strings to the code point lists used in the
rest of the development. -/

/-- A Go string as its bytes, each below 256. -/
abbrev Bytes := List Nat

/-- `strings.HasPrefix(s, prefix)` on bytes. -/
def hasPrefixBytes (s pre : Bytes) : Bool :=
  pre.isPrefixOf s

/-- `strings.Contains(s, substr)` on bytes. -/
def containsBytes : Bytes → Bytes → Bool
  | [], substr => hasPrefixBytes [] substr
  | b :: s, substr => hasPrefixBytes (b :: s) substr || containsBytes s substr

/-- The UTF-8 encoding of a code point (`utf8.AppendRune` for a valid rune). -/
def encodeChar (c : Char) : Bytes :=
  if c.toNat < 0x80 then [c.toNat]
  else if c.toNat < 0x800 then [0xC0 + c.toNat / 64, 0x80 + c.toNat % 64]
  else if c.toNat < 0x10000 then
    [0xE0 + c.toNat / 4096, 0x80 + c.toNat / 64 % 64, 0x80 + c.toNat % 64]
  else
    [0xF0 + c.toNat / 262144, 0x80 + c.toNat / 4096 % 64, 0x80 + c.toNat / 64 % 64,
      0x80 + c.toNat % 64]

/-- The UTF-8 bytes of a text. -/
def utf8 (s : Str) : Bytes :=
  s.flatMap encodeChar

/-- The constant `utf8.RuneError`, U+FFFD. -/
def runeError : Char :=
  Char.ofNat 0xFFFD

/-- `utf8.DecodeRuneInString(s)`: the first rune of `s` and its width in bytes.
A byte that does not start a well-formed encoding decodes to `runeError` with
width 1. -/
def decodeRune : Bytes → Char × Nat
  | [] => (runeError, 0)
  | s0 :: rest =>
    if s0 < 0x80 then (Char.ofNat s0, 1)
    else if s0 < 0xC2 ∨ 0xF4 < s0 then (runeError, 1)
    else
      match rest with
      | [] => (runeError, 1)
      | s1 :: rest1 =>
        if s1 < (if s0 = 0xE0 then 0xA0 else if s0 = 0xF0 then 0x90 else 0x80) ∨
            (if s0 = 0xED then 0x9F else if s0 = 0xF4 then 0x8F else 0xBF) < s1 then
          (runeError, 1)
        else if s0 < 0xE0 then (Char.ofNat ((s0 - 0xC0) * 64 + (s1 - 0x80)), 2)
        else
          match rest1 with
          | [] => (runeError, 1)
          | s2 :: rest2 =>
            if s2 < 0x80 ∨ 0xBF < s2 then (runeError, 1)
            else if s0 < 0xF0 then
              (Char.ofNat ((s0 - 0xE0) * 4096 + (s1 - 0x80) * 64 + (s2 - 0x80)), 3)
            else
              match rest2 with
              | [] => (runeError, 1)
              | s3 :: _ =>
                if s3 < 0x80 ∨ 0xBF < s3 then (runeError, 1)
                else
                  (Char.ofNat ((s0 - 0xF0) * 262144 + (s1 - 0x80) * 4096 + (s2 - 0x80) * 64
                    + (s3 - 0x80)), 4)

/-- `strings.Map(unicode.ToLower, s)`: every rune of `s`, a stray byte counting
as `runeError`, is replaced by the encoding of its lower case.  `skip` is the
number of bytes of the current rune that are still to be passed over. -/
def mapRunesAux (lower : Char → Char) : Bytes → Nat → Bytes
  | [], _ => []
  | _ :: rest, skip + 1 => mapRunesAux lower rest skip
  | b :: rest, 0 =>
    encodeChar (lower (decodeRune (b :: rest)).1)
      ++ mapRunesAux lower rest ((decodeRune (b :: rest)).2 - 1)

/-- `strings.ToLower(s)` on bytes: a string of ASCII bytes is lowered byte by
byte, any other string goes through `strings.Map(unicode.ToLower, s)`. -/
def toLowerBytes (lower : Char → Char) (s : Bytes) : Bytes :=
  if s.all (fun b => b < 0x80) then s.map (fun b => if 0x41 ≤ b ∧ b ≤ 0x5A then b + 0x20 else b)
  else mapRunesAux lower s 0

/-- Function `stringContains(str, substr, ci)` on bytes. -/
def stringContainsBytes (lower : Char → Char) (str substr : Bytes) (ci : Bool) : Bool :=
  if ci then containsBytes (toLowerBytes lower str) (toLowerBytes lower substr)
  else containsBytes str substr

/-! ## Lemmas on the string functions -/

theorem hasPrefix_space (c : Char) (rest : Str) :
    hasPrefix (c :: rest) " ".toList = (c == ' ') := by
  simp only [hasPrefix, String.toList, List.isPrefixOf, Bool.and_true]
  exact Bool.beq_comm

theorem splitAux_ne_nil (sep s : Str) (k : Nat) (cur : Str) : splitAux sep s k cur ≠ [] := by
  induction s generalizing k cur with
  | nil => simp [splitAux]
  | cons c rest ih =>
    cases k with
    | zero =>
      unfold splitAux
      split_ifs
      · simp
      · exact ih _ _
    | succ k =>
      unfold splitAux
      exact ih _ _

theorem getLastD_cons_of_ne_nil (x d : Str) (l : List Str) (h : l ≠ []) :
    (x :: l).getLastD d = l.getLastD d := by
  cases l with
  | nil => exact absurd rfl h
  | cons y ys => simp [List.getLastD]

/-- A piece without a space is not split. -/
theorem splitAux_space_of_not_mem (t cur : Str) (h : ' ' ∉ t) :
    splitAux " ".toList t 0 cur = [cur ++ t] := by
  induction t generalizing cur with
  | nil => simp [splitAux]
  | cons c rest ih =>
    have hc : c ≠ ' ' := fun e => h (by simp [e])
    have hr : ' ' ∉ rest := fun e => h (by simp [e])
    unfold splitAux
    rw [hasPrefix_space, if_neg (by simpa using hc), ih _ hr]
    simp

/-- The last space-separated token of `s ++ " " ++ t` is `t` when `t` has no
space. -/
theorem lastPart_splitAux_space (s t cur : Str) (h : ' ' ∉ t) :
    lastPart (splitAux " ".toList (s ++ ' ' :: t) 0 cur) = t := by
  induction s generalizing cur with
  | nil =>
    show lastPart (splitAux " ".toList (' ' :: t) 0 cur) = t
    unfold splitAux
    rw [hasPrefix_space, if_pos (by simp)]
    unfold lastPart
    rw [getLastD_cons_of_ne_nil _ _ _ (splitAux_ne_nil _ _ _ _)]
    have e : (" ".toList.length - 1) = 0 := by decide
    rw [e, splitAux_space_of_not_mem _ _ h]
    rfl
  | cons c rest ih =>
    show lastPart (splitAux " ".toList (c :: (rest ++ ' ' :: t)) 0 cur) = t
    unfold splitAux
    rw [hasPrefix_space]
    by_cases hc : c = ' '
    · have e : (" ".toList.length - 1) = 0 := by decide
      simp only [hc, beq_self_eq_true, if_true, e]
      unfold lastPart
      rw [getLastD_cons_of_ne_nil _ _ _ (splitAux_ne_nil _ _ _ _)]
      exact ih []
    · simp only [beq_iff_eq, hc, if_false]
      exact ih _

theorem lastPart_split_space (s t : Str) (h : ' ' ∉ t) :
    lastPart (split (s ++ ' ' :: t) " ".toList) = t := by
  unfold split
  rw [if_neg (by simp)]
  exact lastPart_splitAux_space s t [] h

/-! ## Lemmas on the loop body -/

theorem recordTerm_curFile (lower : Char → Char) (ci : Bool) (line : Str) (b : Bool)
    (st : State) (old : Str) : (recordTerm lower ci line b st old).curFile = st.curFile := by
  unfold recordTerm
  dsimp only
  split_ifs <;> rfl

theorem recordTerm_curCommit (lower : Char → Char) (ci : Bool) (line : Str) (b : Bool)
    (st : State) (old : Str) : (recordTerm lower ci line b st old).curCommit = st.curCommit := by
  unfold recordTerm
  dsimp only
  split_ifs <;> rfl

theorem foldl_recordTerm_ctx (lower : Char → Char) (ci : Bool) (line : Str) (b : Bool)
    (terms : List Str) (st : State) :
    (terms.foldl (recordTerm lower ci line b) st).curFile = st.curFile ∧
    (terms.foldl (recordTerm lower ci line b) st).curCommit = st.curCommit := by
  induction terms generalizing st with
  | nil => exact ⟨rfl, rfl⟩
  | cons t ts ih =>
    rw [List.foldl_cons]
    obtain ⟨h1, h2⟩ := ih (recordTerm lower ci line b st t)
    exact ⟨h1.trans (recordTerm_curFile ..), h2.trans (recordTerm_curCommit ..)⟩

/-- With an empty context a term records nothing. -/
theorem recordTerm_of_empty_ctx (lower : Char → Char) (ci : Bool) (line : Str) (b : Bool)
    (st : State) (old : Str) (hf : st.curFile = []) (hc : st.curCommit = []) :
    recordTerm lower ci line b st old = st := by
  unfold recordTerm
  simp [hf, hc]

theorem foldl_recordTerm_of_empty_ctx (lower : Char → Char) (ci : Bool) (line : Str) (b : Bool)
    (terms : List Str) (st : State) (hf : st.curFile = []) (hc : st.curCommit = []) :
    terms.foldl (recordTerm lower ci line b) st = st := by
  induction terms with
  | nil => rfl
  | cons t ts ih => rw [List.foldl_cons, recordTerm_of_empty_ctx _ _ _ _ _ _ hf hc, ih]

/-- After the two tests of a line, the commit or the file is empty, provided
this held before the line. -/
theorem parseLine_inv (st : State) (line : Str)
    (h : st.curCommit = [] ∨ st.curFile = []) :
    (parseLine st line).1.curCommit = [] ∨ (parseLine st line).1.curFile = [] := by
  unfold parseLine parseCommit parseDiff
  dsimp only
  split_ifs <;> first | exact Or.inr rfl | exact Or.inl rfl | exact h

theorem processLine_inv (lower : Char → Char) (ci : Bool) (st : State) (line : Str)
    (terms : List Str) (h : st.curCommit = [] ∨ st.curFile = []) :
    (processLine lower ci st line terms).curCommit = [] ∨
    (processLine lower ci st line terms).curFile = [] := by
  unfold processLine
  obtain ⟨h1, h2⟩ := foldl_recordTerm_ctx lower ci line (parseLine st line).2 terms
    (parseLine st line).1
  simp only [h1, h2]
  exact parseLine_inv st line h

theorem scanFrom_inv (lower : Char → Char) (ci : Bool) (input : List (Str × List Str))
    (st : State) (h : st.curCommit = [] ∨ st.curFile = []) :
    (scanFrom lower ci st input).curCommit = [] ∨ (scanFrom lower ci st input).curFile = [] := by
  induction input generalizing st with
  | nil => exact h
  | cons p ps ih =>
    unfold scanFrom
    rw [List.foldl_cons]
    exact ih _ (processLine_inv lower ci st p.1 p.2 h)

/-- A line that starts with neither marker leaves the state as it is. -/
theorem parseLine_other (st : State) (line : Str)
    (hd : hasPrefix line "diff --git".toList = false)
    (hc : hasPrefix line "commit ".toList = false) : parseLine st line = (st, false) := by
  unfold parseLine parseCommit parseDiff
  simp only [hd, hc]
  rfl

theorem processLine_ctx (lower : Char → Char) (ci : Bool) (st : State) (line : Str)
    (terms : List Str) :
    (processLine lower ci st line terms).curFile = (parseLine st line).1.curFile ∧
    (processLine lower ci st line terms).curCommit = (parseLine st line).1.curCommit := by
  unfold processLine
  exact foldl_recordTerm_ctx lower ci line (parseLine st line).2 terms (parseLine st line).1

/-- Lines without a marker, scanned from an empty context, record nothing. -/
theorem scanFrom_of_no_marker (lower : Char → Char) (ci : Bool) (input : List (Str × List Str))
    (st : State) (hf : st.curFile = []) (hc : st.curCommit = [])
    (h : ∀ p ∈ input, hasPrefix p.1 "diff --git".toList = false ∧
      hasPrefix p.1 "commit ".toList = false) :
    scanFrom lower ci st input = st := by
  induction input with
  | nil => rfl
  | cons p ps ih =>
    have hp := h p (List.mem_cons_self _ _)
    have step : processLine lower ci st p.1 p.2 = st := by
      unfold processLine
      rw [parseLine_other st p.1 hp.1 hp.2]
      exact foldl_recordTerm_of_empty_ctx lower ci p.1 false p.2 st hf hc
    unfold scanFrom
    rw [List.foldl_cons, step]
    exact ih (fun q hq => h q (List.mem_cons_of_mem _ hq))

theorem hasPrefix_diff_line (rest : Str) :
    hasPrefix ("diff --git a/".toList ++ rest) "diff --git".toList = true := by
  simp [hasPrefix, List.isPrefixOf]

theorem hasPrefix_commit_diff_line (rest : Str) :
    hasPrefix ("diff --git a/".toList ++ rest) "commit ".toList = false := by
  simp [hasPrefix, List.isPrefixOf]

theorem hasPrefix_commit_line (rest : Str) :
    hasPrefix ("commit ".toList ++ rest) "commit ".toList = true := by
  simp [hasPrefix, List.isPrefixOf]

theorem hasPrefix_diff_commit_line (rest : Str) :
    hasPrefix ("commit ".toList ++ rest) "diff --git".toList = false := by
  simp [hasPrefix, List.isPrefixOf]

theorem trimPrefix_append (pre s : Str) : trimPrefix (pre ++ s) pre = s := by
  unfold trimPrefix hasPrefix
  have h : pre.isPrefixOf (pre ++ s) = true := by
    rw [List.isPrefixOf_iff_prefix]
    exact List.prefix_append pre s
  rw [if_pos h, List.drop_left]

/-! ## Lemmas on maps, sets and the match test -/

theorem mapGet_mapSet_self {V : Type} (m : GoMap V) (k : Str) (v : V) :
    mapGet (mapSet m k v) k = some v := by
  induction m with
  | nil => simp [mapSet, mapGet]
  | cons e rest ih =>
    obtain ⟨k1, v1⟩ := e
    unfold mapSet
    by_cases hk : k1 = k
    · simp [hk, mapGet]
    · simp [hk, mapGet, ih]

theorem mem_setInsert_self (s : GoSet) (k : Str) : k ∈ setInsert s k := by
  unfold setInsert
  split_ifs with h
  · exact h
  · simp

/-- After `addMatch` the term is in the set of the entity. -/
theorem addMatch_mem (m : GoMap GoSet) (file term : Str) :
    ∃ s, mapGet (addMatch m file term) file = some s ∧ term ∈ s := by
  unfold addMatch
  cases mapGet m file with
  | none => exact ⟨_, mapGet_mapSet_self _ _ _, mem_setInsert_self _ _⟩
  | some terms => exact ⟨_, mapGet_mapSet_self _ _ _, mem_setInsert_self _ _⟩

/-- The scan of `strings.Contains` finds `substr` exactly when it is a
contiguous part of `s`. -/
theorem contains_iff_substring (s substr : Str) : contains s substr = true ↔ substr <:+: s := by
  induction s with
  | nil =>
    unfold contains hasPrefix
    rw [List.isPrefixOf_iff_prefix, List.prefix_nil, List.infix_nil]
  | cons c rest ih =>
    unfold contains hasPrefix
    rw [Bool.or_eq_true, List.isPrefixOf_iff_prefix, ih, List.infix_cons_iff]

theorem map_lower_ascii (lower : Char → Char)
    (h : ∀ c : Char, c.toNat < 128 → lower c = c.toLower) (s : Str)
    (hs : ∀ c ∈ s, c.toNat < 128) : toLower lower s = s.map Char.toLower := by
  unfold toLower
  exact List.map_congr_left (fun c hc => h c (hs c hc))

/-! ## The parser: context transitions -/

/-- C1: after the loop has processed any prefix of any list of lines, the
current commit or the current file is empty. -/
theorem parse_context_at_most_one (lower : Char → Char) (ci : Bool)
    (input : List (Str × List Str)) (n : Nat) :
    (scan lower ci (input.take n)).curCommit = [] ∨
    (scan lower ci (input.take n)).curFile = [] :=
  scanFrom_inv lower ci (input.take n) State.init (Or.inl rfl)

/-- C2, as stated, fails: for the path `my file.txt` the header line
`diff --git a/my file.txt b/my file.txt` sets the current file to `file.txt`,
the text after the last space. -/
theorem diff_line_path_with_space :
    (parseLine State.init "diff --git a/my file.txt b/my file.txt".toList).1.curFile
      = "file.txt".toList ∧
    (parseLine State.init "diff --git a/my file.txt b/my file.txt".toList).1.curFile
      ≠ "my file.txt".toList := by
  decide

/-- C2, amended: for every path `old` and every path `new` without a space, the
line `diff --git a/<old> b/<new>` sets the current file to `new`, clears the
current commit, leaves the match records as they are and is flagged as a
file-name line; the terms visited on the line do not change this context. -/
theorem diff_line_sets_file (st : State) (old new : Str) (h : ' ' ∉ new) :
    parseLine st ("diff --git a/".toList ++ old ++ " b/".toList ++ new)
      = ({ st with curFile := new, curCommit := [] }, true) ∧
    ∀ (lower : Char → Char) (ci : Bool) (terms : List Str),
      (processLine lower ci st ("diff --git a/".toList ++ old ++ " b/".toList ++ new)
        terms).curFile = new ∧
      (processLine lower ci st ("diff --git a/".toList ++ old ++ " b/".toList ++ new)
        terms).curCommit = [] := by
  have hb : ' ' ∉ "b/".toList ++ new := by
    intro hm
    rcases List.mem_append.1 hm with hm | hm
    · revert hm; decide
    · exact h hm
  have hline : "diff --git a/".toList ++ old ++ " b/".toList ++ new
      = ("diff --git a/".toList ++ old) ++ ' ' :: ("b/".toList ++ new) := by
    simp
  have hparse : parseLine st ("diff --git a/".toList ++ old ++ " b/".toList ++ new)
      = ({ st with curFile := new, curCommit := [] }, true) := by
    unfold parseLine parseCommit parseDiff
    have h1 := hasPrefix_diff_line (old ++ " b/".toList ++ new)
    have h2 := hasPrefix_commit_diff_line (old ++ " b/".toList ++ new)
    simp only [← List.append_assoc] at h1 h2
    simp only [h1, h2, if_true]
    rw [hline, lastPart_split_space _ _ hb, trimPrefix_append]
    rfl
  refine ⟨hparse, fun lower ci terms => ?_⟩
  have hctx := processLine_ctx lower ci st
    ("diff --git a/".toList ++ old ++ " b/".toList ++ new) terms
  rw [hparse] at hctx
  exact hctx

theorem diff_line_sets_file_witness :
    ' ' ∉ "bar.txt".toList ∧
    parseLine State.init ("diff --git a/".toList ++ "foo.txt".toList ++ " b/".toList ++
      "bar.txt".toList)
      = ({ State.init with curFile := "bar.txt".toList, curCommit := [] }, true) :=
  ⟨by decide, (diff_line_sets_file State.init "foo.txt".toList "bar.txt".toList (by decide)).1⟩

/-- C3: for every hash `h` without a space, the line `commit <h>` sets the
current commit to `h`, clears the current file, leaves the match records as
they are and is not flagged as a file-name line; the terms visited on the line
do not change this context. -/
theorem commit_line_sets_commit (st : State) (h : Str) (hs : ' ' ∉ h) :
    parseLine st ("commit ".toList ++ h) = ({ st with curCommit := h, curFile := [] }, false) ∧
    ∀ (lower : Char → Char) (ci : Bool) (terms : List Str),
      (processLine lower ci st ("commit ".toList ++ h) terms).curCommit = h ∧
      (processLine lower ci st ("commit ".toList ++ h) terms).curFile = [] := by
  have hline : "commit ".toList ++ h = "commit".toList ++ ' ' :: h := by
    simp
  have hparse : parseLine st ("commit ".toList ++ h)
      = ({ st with curCommit := h, curFile := [] }, false) := by
    unfold parseLine parseCommit parseDiff
    simp only [hasPrefix_commit_line, hasPrefix_diff_commit_line, if_true]
    rw [hline, lastPart_split_space _ _ hs]
    rfl
  refine ⟨hparse, fun lower ci terms => ?_⟩
  have hctx := processLine_ctx lower ci st ("commit ".toList ++ h) terms
  rw [hparse] at hctx
  exact ⟨hctx.2, hctx.1⟩

theorem commit_line_sets_commit_witness :
    ' ' ∉ "3f2a9c".toList ∧
    parseLine { State.init with curFile := "a.txt".toList } ("commit ".toList ++ "3f2a9c".toList)
      = ({ State.init with curCommit := "3f2a9c".toList, curFile := [] }, false) :=
  ⟨by decide,
    (commit_line_sets_commit { State.init with curFile := "a.txt".toList } "3f2a9c".toList
      (by decide)).1⟩

/-- C4: a line that begins with neither `diff --git` nor `commit ` leaves the
state of the parser as it was after the previous line and is not flagged as a
file-name line; after the terms of the line have been visited, the current
commit and the current file are still those of the previous line. -/
theorem other_line_keeps_context (st : State) (line : Str)
    (hd : hasPrefix line "diff --git".toList = false)
    (hc : hasPrefix line "commit ".toList = false) :
    parseLine st line = (st, false) ∧
    ∀ (lower : Char → Char) (ci : Bool) (terms : List Str),
      (processLine lower ci st line terms).curCommit = st.curCommit ∧
      (processLine lower ci st line terms).curFile = st.curFile := by
  have hparse := parseLine_other st line hd hc
  refine ⟨hparse, fun lower ci terms => ?_⟩
  have hctx := processLine_ctx lower ci st line terms
  rw [hparse] at hctx
  exact ⟨hctx.2, hctx.1⟩

theorem other_line_keeps_context_witness :
    hasPrefix "+password = hunter2".toList "diff --git".toList = false ∧
    hasPrefix "+password = hunter2".toList "commit ".toList = false ∧
    parseLine { State.init with curFile := "a.txt".toList } "+password = hunter2".toList
      = ({ State.init with curFile := "a.txt".toList }, false) :=
  ⟨by decide, by decide,
    (other_line_keeps_context { State.init with curFile := "a.txt".toList }
      "+password = hunter2".toList (by decide) (by decide)).1⟩

/-- C5: while no line so far begins with `diff --git` or `commit `, the loop is
still in its initial state: every such line is processed with the current
commit and the current file empty, and nothing is recorded. -/
theorem preamble_context_empty (lower : Char → Char) (ci : Bool)
    (pre rest : List (Str × List Str)) (k : Nat)
    (hpre : ∀ p ∈ pre, hasPrefix p.1 "diff --git".toList = false ∧
      hasPrefix p.1 "commit ".toList = false)
    (hk : k ≤ pre.length) :
    scan lower ci ((pre ++ rest).take k) = State.init ∧
    (scan lower ci ((pre ++ rest).take k)).curCommit = [] ∧
    (scan lower ci ((pre ++ rest).take k)).curFile = [] := by
  have e : scan lower ci ((pre ++ rest).take k) = State.init := by
    rw [List.take_append_of_le_length hk]
    exact scanFrom_of_no_marker lower ci (pre.take k) State.init rfl rfl
      (fun p hp => hpre p (List.mem_of_mem_take hp))
  rw [e]
  exact ⟨rfl, rfl, rfl⟩

theorem preamble_context_empty_witness :
    (∀ p ∈ [("warning: refname is ambiguous".toList, ["refname".toList])],
      hasPrefix p.1 "diff --git".toList = false ∧ hasPrefix p.1 "commit ".toList = false) ∧
    (1 ≤ [("warning: refname is ambiguous".toList, ["refname".toList])].length) ∧
    (scan Char.toLower false
      (([("warning: refname is ambiguous".toList, ["refname".toList])] ++
        [("commit 3f2a9c".toList, ["refname".toList])]).take 1)).curCommit = [] :=
  ⟨by decide, by decide,
    (preamble_context_empty Char.toLower false
      [("warning: refname is ambiguous".toList, ["refname".toList])]
      [("commit 3f2a9c".toList, ["refname".toList])] 1 (by decide) (by decide)).2.1⟩

/-! ## The aggregator -/

/-- C6: when the term `old` matches the line and the current file `f` is not
empty, the loop body marks `f` in `matchingFiles`; on a file-name line it adds
`old` to `matchingFileNames[f]` and leaves `matchingContents` as it is, on any
other line it adds `old` to `matchingContents[f]` and leaves
`matchingFileNames` as it is. -/
theorem file_bucket_classification (lower : Char → Char) (ci : Bool) (line : Str)
    (isFileName : Bool) (st : State) (old : Str)
    (hm : stringContains lower line old ci = true) (hf : st.curFile ≠ []) :
    (recordTerm lower ci line isFileName st old).matchingFiles
      = mapSet st.matchingFiles st.curFile false ∧
    mapGet (recordTerm lower ci line isFileName st old).matchingFiles st.curFile = some false ∧
    (isFileName = true →
      (recordTerm lower ci line isFileName st old).matchingFileNames
        = addMatch st.matchingFileNames st.curFile old ∧
      (∃ s, mapGet (recordTerm lower ci line isFileName st old).matchingFileNames st.curFile
        = some s ∧ old ∈ s) ∧
      (recordTerm lower ci line isFileName st old).matchingContents = st.matchingContents) ∧
    (isFileName = false →
      (recordTerm lower ci line isFileName st old).matchingContents
        = addMatch st.matchingContents st.curFile old ∧
      (∃ s, mapGet (recordTerm lower ci line isFileName st old).matchingContents st.curFile
        = some s ∧ old ∈ s) ∧
      (recordTerm lower ci line isFileName st old).matchingFileNames = st.matchingFileNames) := by
  have hfiles : (recordTerm lower ci line isFileName st old).matchingFiles
      = mapSet st.matchingFiles st.curFile false := by
    unfold recordTerm
    simp only [hm, if_true, hf, ne_eq, not_false_eq_true]
    split_ifs <;> rfl
  refine ⟨hfiles, ?_, ?_, ?_⟩
  · rw [hfiles]
    exact mapGet_mapSet_self _ _ _
  · intro hb
    have hn : (recordTerm lower ci line isFileName st old).matchingFileNames
        = addMatch st.matchingFileNames st.curFile old := by
      subst hb
      unfold recordTerm
      simp only [hm, if_true, hf, ne_eq, not_false_eq_true, Bool.false_eq_true, if_false]
      split_ifs <;> rfl
    have hc : (recordTerm lower ci line isFileName st old).matchingContents
        = st.matchingContents := by
      subst hb
      unfold recordTerm
      simp only [hm, if_true, hf, ne_eq, not_false_eq_true, Bool.false_eq_true, if_false]
      split_ifs <;> rfl
    refine ⟨hn, ?_, hc⟩
    rw [hn]
    exact addMatch_mem _ _ _
  · intro hb
    have hc : (recordTerm lower ci line isFileName st old).matchingContents
        = addMatch st.matchingContents st.curFile old := by
      subst hb
      unfold recordTerm
      simp only [hm, if_true, hf, ne_eq, not_false_eq_true, Bool.false_eq_true, if_false]
      split_ifs <;> rfl
    have hn : (recordTerm lower ci line isFileName st old).matchingFileNames
        = st.matchingFileNames := by
      subst hb
      unfold recordTerm
      simp only [hm, if_true, hf, ne_eq, not_false_eq_true, Bool.false_eq_true, if_false]
      split_ifs <;> rfl
    refine ⟨hc, ?_, hn⟩
    rw [hc]
    exact addMatch_mem _ _ _

theorem file_bucket_classification_witness :
    stringContains Char.toLower "+token = 42".toList "token".toList false = true ∧
    ({ State.init with curFile := "secret.txt".toList } : State).curFile ≠ [] ∧
    (recordTerm Char.toLower false "+token = 42".toList false
      { State.init with curFile := "secret.txt".toList } "token".toList).matchingFiles
      = mapSet [] "secret.txt".toList false :=
  ⟨by decide, by decide,
    (file_bucket_classification Char.toLower false "+token = 42".toList false
      { State.init with curFile := "secret.txt".toList } "token".toList
      (by decide) (by decide)).1⟩

/-- C7: when the term `old` matches a line that is processed with a current
commit and no current file, the loop body adds `old` to
`matchingCommits[curCommit]` and leaves `matchingContents`,
`matchingFileNames` and `matchingFiles` as they are. -/
theorem commit_only_recording (lower : Char → Char) (ci : Bool) (line : Str)
    (isFileName : Bool) (st : State) (old : Str)
    (hm : stringContains lower line old ci = true)
    (hc : st.curCommit ≠ []) (hf : st.curFile = []) :
    (recordTerm lower ci line isFileName st old).matchingCommits
      = addMatch st.matchingCommits st.curCommit old ∧
    (∃ s, mapGet (recordTerm lower ci line isFileName st old).matchingCommits st.curCommit
      = some s ∧ old ∈ s) ∧
    (recordTerm lower ci line isFileName st old).matchingContents = st.matchingContents ∧
    (recordTerm lower ci line isFileName st old).matchingFileNames = st.matchingFileNames ∧
    (recordTerm lower ci line isFileName st old).matchingFiles = st.matchingFiles := by
  have e : recordTerm lower ci line isFileName st old
      = { st with matchingCommits := addMatch st.matchingCommits st.curCommit old } := by
    unfold recordTerm
    simp only [hm, if_true, hf, hc, ne_eq, not_true_eq_false, not_false_eq_true, if_false]
  rw [e]
  exact ⟨rfl, addMatch_mem _ _ _, rfl, rfl, rfl⟩

theorem commit_only_recording_witness :
    stringContains Char.toLower "    remove the token".toList "token".toList false = true ∧
    ({ State.init with curCommit := "3f2a9c".toList } : State).curCommit ≠ [] ∧
    ({ State.init with curCommit := "3f2a9c".toList } : State).curFile = [] ∧
    (recordTerm Char.toLower false "    remove the token".toList false
      { State.init with curCommit := "3f2a9c".toList } "token".toList).matchingCommits
      = addMatch [] "3f2a9c".toList "token".toList :=
  ⟨by decide, by decide, by decide,
    (commit_only_recording Char.toLower false "    remove the token".toList false
      { State.init with curCommit := "3f2a9c".toList } "token".toList
      (by decide) (by decide) (by decide)).1⟩

/-- C8: without the flag, `stringContains` is true exactly when the term is a
contiguous part of the line; with the flag, exactly when the lower-cased term
is a contiguous part of the lower-cased line.  The term `Secret` matches the
line `this is secret` with the flag (for every case mapping that is the usual
one on ASCII) and does not match it without the flag. -/
theorem stringContains_spec :
    (∀ (lower : Char → Char) (line term : Str),
      stringContains lower line term false = true ↔ term <:+: line) ∧
    (∀ (lower : Char → Char) (line term : Str),
      stringContains lower line term true = true ↔ term.map lower <:+: line.map lower) ∧
    (∀ lower : Char → Char, (∀ c : Char, c.toNat < 128 → lower c = c.toLower) →
      stringContains lower "this is secret".toList "Secret".toList true = true) ∧
    (∀ lower : Char → Char,
      stringContains lower "this is secret".toList "Secret".toList false = false) := by
  refine ⟨fun lower line term => ?_, fun lower line term => ?_, fun lower h => ?_, fun lower => ?_⟩
  · unfold stringContains
    simp only [Bool.false_eq_true, if_false]
    exact contains_iff_substring line term
  · unfold stringContains
    simp only [if_true]
    exact contains_iff_substring _ _
  · unfold stringContains
    simp only [if_true]
    rw [map_lower_ascii lower h _ (by decide), map_lower_ascii lower h _ (by decide)]
    decide
  · unfold stringContains
    simp only [Bool.false_eq_true, if_false]
    decide

theorem stringContains_spec_witness :
    (∀ c : Char, c.toNat < 128 → Char.toLower c = c.toLower) ∧
    stringContains Char.toLower "this is secret".toList "Secret".toList true = true :=
  ⟨fun _ _ => rfl, stringContains_spec.2.2.1 Char.toLower (fun _ _ => rfl)⟩

/-! ## The term listing -/

theorem char_toNat_inj (a b : Char) (h : a.toNat = b.toNat) : a = b :=
  Char.eq_of_val_eq (UInt32.ext h)

/-- The comparison `strLe` is the lexicographic order on code points. -/
theorem strLe_iff_lex (a b : Str) :
    strLe a b = true ↔ a = b ∨ List.Lex (fun x y : Char => x.toNat < y.toNat) a b := by
  induction a generalizing b with
  | nil =>
    cases b with
    | nil => simp [strLe]
    | cons y ys => simp [strLe, List.Lex.nil]
  | cons x xs ih =>
    cases b with
    | nil =>
      simp only [strLe, Bool.false_eq_true, false_iff, not_or]
      refine ⟨by simp, fun h => ?_⟩
      cases h
    | cons y ys =>
      simp only [strLe, Bool.or_eq_true, Bool.and_eq_true, decide_eq_true_eq, beq_iff_eq]
      constructor
      · rintro (hlt | ⟨heq, hle⟩)
        · exact Or.inr (List.Lex.rel hlt)
        · have hxy := char_toNat_inj x y heq
          subst hxy
          rcases (ih ys).1 hle with h | h
          · exact Or.inl (by rw [h])
          · exact Or.inr (List.Lex.cons h)
      · rintro (h | h)
        · injection h with h1 h2
          subst h1
          exact Or.inr ⟨rfl, (ih ys).2 (Or.inl h2)⟩
        · cases h with
          | cons h1 => exact Or.inr ⟨rfl, (ih ys).2 (Or.inr h1)⟩
          | rel h1 => exact Or.inl h1

theorem strLe_total (a b : Str) : strLe a b = true ∨ strLe b a = true := by
  induction a generalizing b with
  | nil => simp [strLe]
  | cons x xs ih =>
    cases b with
    | nil => simp [strLe]
    | cons y ys =>
      simp only [strLe, Bool.or_eq_true, Bool.and_eq_true, decide_eq_true_eq, beq_iff_eq]
      rcases Nat.lt_trichotomy x.toNat y.toNat with h | h | h
      · exact Or.inl (Or.inl h)
      · rcases ih ys with h1 | h1
        · exact Or.inl (Or.inr ⟨h, h1⟩)
        · exact Or.inr (Or.inr ⟨h.symm, h1⟩)
      · exact Or.inr (Or.inl h)

theorem strLe_antisymm (a b : Str) (h1 : strLe a b = true) (h2 : strLe b a = true) : a = b := by
  induction a generalizing b with
  | nil =>
    cases b with
    | nil => rfl
    | cons y ys => simp [strLe] at h2
  | cons x xs ih =>
    cases b with
    | nil => simp [strLe] at h1
    | cons y ys =>
      simp only [strLe, Bool.or_eq_true, Bool.and_eq_true, decide_eq_true_eq, beq_iff_eq]
        at h1 h2
      rcases h1 with h1 | ⟨e1, h1⟩
      · rcases h2 with h2 | ⟨e2, _⟩ <;> omega
      · rcases h2 with h2 | ⟨_, h2⟩
        · omega
        · rw [char_toNat_inj x y e1, ih ys h1 h2]

theorem strLe_trans (a b c : Str) (h1 : strLe a b = true) (h2 : strLe b c = true) :
    strLe a c = true := by
  induction a generalizing b c with
  | nil => simp [strLe]
  | cons x xs ih =>
    cases b with
    | nil => simp [strLe] at h1
    | cons y ys =>
      cases c with
      | nil => simp [strLe] at h2
      | cons z zs =>
        simp only [strLe, Bool.or_eq_true, Bool.and_eq_true, decide_eq_true_eq, beq_iff_eq]
          at h1 h2 ⊢
        rcases h1 with h1 | ⟨e1, h1⟩
        · rcases h2 with h2 | ⟨e2, _⟩
          · exact Or.inl (by omega)
          · exact Or.inl (by omega)
        · rcases h2 with h2 | ⟨e2, h2⟩
          · exact Or.inl (by omega)
          · exact Or.inr ⟨by omega, ih ys zs h1 h2⟩

theorem sortedInsert_perm (x : Str) (l : List Str) : (sortedInsert x l).Perm (x :: l) := by
  induction l with
  | nil => exact List.Perm.refl _
  | cons y ys ih =>
    unfold sortedInsert
    split_ifs
    · exact List.Perm.refl _
    · exact (List.Perm.cons y ih).trans (List.Perm.swap x y ys)

theorem sortStrings_perm (l : List Str) : (sortStrings l).Perm l := by
  induction l with
  | nil => exact List.Perm.refl _
  | cons x xs ih =>
    show (sortedInsert x (sortStrings xs)).Perm (x :: xs)
    exact (sortedInsert_perm x _).trans (List.Perm.cons x ih)

theorem sortedInsert_sorted (x : Str) (l : List Str)
    (h : l.Pairwise (fun a b => strLe a b = true)) :
    (sortedInsert x l).Pairwise (fun a b => strLe a b = true) := by
  induction l with
  | nil => simp [sortedInsert]
  | cons y ys ih =>
    rw [List.pairwise_cons] at h
    unfold sortedInsert
    split_ifs with hxy
    · refine List.pairwise_cons.2 ⟨fun b hb => ?_, List.pairwise_cons.2 h⟩
      rcases List.mem_cons.1 hb with e | hb
      · rw [e]; exact hxy
      · exact strLe_trans x y b hxy (h.1 b hb)
    · have hyx : strLe y x = true := (strLe_total x y).resolve_left hxy
      refine List.pairwise_cons.2 ⟨fun b hb => ?_, ih h.2⟩
      rcases List.mem_cons.1 ((sortedInsert_perm x ys).subset hb) with e | hb
      · rw [e]; exact hyx
      · exact h.1 b hb

theorem sortStrings_sorted (l : List Str) :
    (sortStrings l).Pairwise (fun a b => strLe a b = true) := by
  induction l with
  | nil => exact List.Pairwise.nil
  | cons x xs ih => exact sortedInsert_sorted x _ ih

/-- Two visiting orders of the same keys sort to the same list. -/
theorem sortStrings_eq_of_perm (l1 l2 : List Str) (h : l1.Perm l2) :
    sortStrings l1 = sortStrings l2 := by
  haveI : IsAntisymm Str (fun a b => strLe a b = true) := ⟨strLe_antisymm⟩
  exact List.eq_of_perm_of_sorted
    (((sortStrings_perm l1).trans h).trans (sortStrings_perm l2).symm)
    (sortStrings_sorted l1) (sortStrings_sorted l2)

/-- C9: `getKeysString` joins with `, ` a list that holds the keys it was
given, each as often as it was delivered (once, for the keys of a set), in
ascending lexicographic order; the result is the same for every order in which
the keys are delivered, and for the keys `zeta`, `alpha`, `mid` it is
`alpha, mid, zeta`. -/
theorem getKeysString_sorted_listing :
    (∀ visit : List Str, ∃ sorted : List Str,
      getKeysString visit = join sorted ", ".toList ∧
      sorted.Perm visit ∧
      (visit.Nodup → sorted.Nodup) ∧
      sorted.Pairwise (fun a b => a = b ∨ List.Lex (fun x y : Char => x.toNat < y.toNat) a b)) ∧
    (∀ visit1 visit2 : List Str, visit1.Perm visit2 →
      getKeysString visit1 = getKeysString visit2) ∧
    (∀ visit : List Str, visit.Perm ["zeta".toList, "alpha".toList, "mid".toList] →
      getKeysString visit = "alpha, mid, zeta".toList) := by
  refine ⟨fun visit => ⟨sortStrings visit, rfl, sortStrings_perm visit, fun hn => ?_, ?_⟩,
    fun visit1 visit2 h => ?_, fun visit h => ?_⟩
  · exact (sortStrings_perm visit).nodup_iff.2 hn
  · exact (sortStrings_sorted visit).imp (fun {a b} hab => (strLe_iff_lex a b).1 hab)
  · unfold getKeysString
    rw [sortStrings_eq_of_perm visit1 visit2 h]
  · unfold getKeysString
    rw [sortStrings_eq_of_perm visit _ h]
    decide

theorem getKeysString_sorted_listing_witness :
    ["mid".toList, "zeta".toList, "alpha".toList].Perm
      ["zeta".toList, "alpha".toList, "mid".toList] ∧
    getKeysString ["mid".toList, "zeta".toList, "alpha".toList] = "alpha, mid, zeta".toList :=
  ⟨by decide, getKeysString_sorted_listing.2.2 _ (by decide)⟩

/-! ## The replacement file -/

theorem hasPrefix_iff_append (s sep : Str) : hasPrefix s sep = true ↔ ∃ r, s = sep ++ r := by
  unfold hasPrefix
  rw [List.isPrefixOf_iff_prefix]
  exact ⟨fun ⟨r, hr⟩ => ⟨r, hr.symm⟩, fun ⟨r, hr⟩ => ⟨r, hr.symm⟩⟩

theorem splitAux_arrow_head (r cur : Str) :
    splitAux "==>".toList ("==>".toList ++ r) 0 cur = cur :: splitAux "==>".toList r 0 [] := by
  show splitAux "==>".toList ('=' :: '=' :: '>' :: r) 0 cur = _
  rw [splitAux, if_pos (by simp [hasPrefix, List.isPrefixOf])]
  show cur :: splitAux "==>".toList ('=' :: '>' :: r) 2 [] = _
  rw [splitAux, splitAux]

theorem occurrences_arrow_head (r : Str) :
    occurrences "==>".toList ("==>".toList ++ r) = 1 + occurrences "==>".toList r := by
  show occurrences "==>".toList ('=' :: '=' :: '>' :: r) = _
  rw [occurrences, occurrences, occurrences, if_pos (by simp [hasPrefix, List.isPrefixOf]),
    if_neg (by simp [hasPrefix, List.isPrefixOf]), if_neg (by simp [hasPrefix, List.isPrefixOf])]
  omega

theorem join_cons_of_ne_nil (a sep : Str) (l : List Str) (h : l ≠ []) :
    join (a :: l) sep = a ++ sep ++ join l sep := by
  cases l with
  | nil => exact absurd rfl h
  | cons b rest => rfl

/-- The number of pieces is one more than the number of separators, and the
pieces joined by the separator give back the text. -/
theorem splitAux_arrow_length_join (n : Nat) (s cur : Str) (hn : s.length ≤ n) :
    (splitAux "==>".toList s 0 cur).length = occurrences "==>".toList s + 1 ∧
    join (splitAux "==>".toList s 0 cur) "==>".toList = cur ++ s := by
  induction n generalizing s cur with
  | zero =>
    have hs : s = [] := List.length_eq_zero.1 (Nat.le_zero.1 hn)
    subst hs
    simp [splitAux, occurrences, hasPrefix, List.isPrefixOf, join]
  | succ n ih =>
    cases s with
    | nil => simp [splitAux, occurrences, hasPrefix, List.isPrefixOf, join]
    | cons c rest =>
      by_cases hp : hasPrefix (c :: rest) "==>".toList = true
      · obtain ⟨r, hr⟩ := (hasPrefix_iff_append _ _).1 hp
        have hlen : r.length ≤ n := by
          have := congrArg List.length hr
          simp at this hn
          omega
        rw [hr, splitAux_arrow_head, occurrences_arrow_head,
          join_cons_of_ne_nil _ _ _ (splitAux_ne_nil _ _ _ _)]
        obtain ⟨h1, h2⟩ := ih r [] hlen
        refine ⟨by rw [List.length_cons, h1]; omega, ?_⟩
        rw [h2]
        simp
      · have hlen : rest.length ≤ n := by
          simp at hn
          omega
        rw [splitAux, if_neg hp, occurrences, if_neg hp]
        obtain ⟨h1, h2⟩ := ih rest (cur ++ [c]) hlen
        refine ⟨by rw [h1]; omega, ?_⟩
        rw [h2]
        simp

theorem occurrences_arrow_pos (a b : Str) :
    1 ≤ occurrences "==>".toList (a ++ "==>".toList ++ b) := by
  induction a with
  | nil =>
    have := occurrences_arrow_head b
    simp only [List.nil_append]
    omega
  | cons c rest ih =>
    show 1 ≤ occurrences "==>".toList (c :: (rest ++ "==>".toList ++ b))
    rw [occurrences]
    omega

theorem splitAux_arrow_of_no_occurrence (s cur : Str)
    (h : occurrences "==>".toList s = 0) : splitAux "==>".toList s 0 cur = [cur ++ s] := by
  induction s generalizing cur with
  | nil => simp [splitAux]
  | cons c rest ih =>
    rw [occurrences] at h
    have hp : ¬ hasPrefix (c :: rest) "==>".toList = true := by
      intro hp
      rw [if_pos hp] at h
      omega
    rw [if_neg hp] at h
    rw [splitAux, if_neg hp, ih _ (by omega)]
    simp

/-- With exactly one separator the two pieces are the text before it and the
text after it. -/
theorem splitAux_arrow_of_one_occurrence (a b cur : Str)
    (h : occurrences "==>".toList (a ++ "==>".toList ++ b) = 1) :
    splitAux "==>".toList (a ++ "==>".toList ++ b) 0 cur = [cur ++ a, b] := by
  induction a generalizing cur with
  | nil =>
    simp only [List.nil_append] at h ⊢
    rw [occurrences_arrow_head] at h
    rw [splitAux_arrow_head, splitAux_arrow_of_no_occurrence b [] (by omega)]
    simp
  | cons c rest ih =>
    have hpos := occurrences_arrow_pos rest b
    change occurrences "==>".toList (c :: (rest ++ "==>".toList ++ b)) = 1 at h
    show splitAux "==>".toList (c :: (rest ++ "==>".toList ++ b)) 0 cur = _
    rw [occurrences] at h
    have hp : ¬ hasPrefix (c :: (rest ++ "==>".toList ++ b)) "==>".toList = true := by
      intro hp
      rw [if_pos hp] at h
      omega
    rw [if_neg hp] at h
    rw [splitAux, if_neg hp, ih _ (by omega)]
    simp

theorem exists_arrow_of_occurrence (s : Str) (h : 1 ≤ occurrences "==>".toList s) :
    ∃ a b, s = a ++ "==>".toList ++ b := by
  induction s with
  | nil => simp [occurrences, hasPrefix, List.isPrefixOf] at h
  | cons c rest ih =>
    by_cases hp : hasPrefix (c :: rest) "==>".toList = true
    · obtain ⟨r, hr⟩ := (hasPrefix_iff_append _ _).1 hp
      exact ⟨[], r, by rw [hr]; rfl⟩
    · rw [occurrences, if_neg hp] at h
      obtain ⟨a, b, hab⟩ := ih (by omega)
      exact ⟨c :: a, b, by rw [hab]; rfl⟩

/-- Two separators give two different ways to cut the text at a separator. -/
theorem exists_two_arrows (s : Str) (h : 2 ≤ occurrences "==>".toList s) :
    ∃ a b a2 b2, s = a ++ "==>".toList ++ b ∧ s = a2 ++ "==>".toList ++ b2 ∧ a ≠ a2 := by
  induction s with
  | nil => simp [occurrences, hasPrefix, List.isPrefixOf] at h
  | cons c rest ih =>
    by_cases hp : hasPrefix (c :: rest) "==>".toList = true
    · obtain ⟨r, hr⟩ := (hasPrefix_iff_append _ _).1 hp
      rw [occurrences, if_pos hp] at h
      obtain ⟨a, b, hab⟩ := exists_arrow_of_occurrence rest (by omega)
      exact ⟨[], r, c :: a, b, by rw [hr]; rfl, by rw [hab]; rfl, by simp⟩
    · rw [occurrences, if_neg hp] at h
      obtain ⟨a, b, a2, b2, h1, h2, hne⟩ := ih (by omega)
      exact ⟨c :: a, b, c :: a2, b2, by rw [h1]; rfl, by rw [h2]; rfl, by simpa using hne⟩

/-- The count `occurrences` is one exactly when the text can be cut at a
separator in one way only. -/
theorem occurrences_arrow_eq_one_iff (line : Str) :
    occurrences "==>".toList line = 1 ↔
    ∃ a b, line = a ++ "==>".toList ++ b ∧
      ∀ a2 b2, line = a2 ++ "==>".toList ++ b2 → a2 = a ∧ b2 = b := by
  constructor
  · intro h
    obtain ⟨a, b, hab⟩ := exists_arrow_of_occurrence line (by omega)
    refine ⟨a, b, hab, fun a2 b2 h2 => ?_⟩
    have e1 := splitAux_arrow_of_one_occurrence a b [] (by rw [← hab]; exact h)
    have e2 := splitAux_arrow_of_one_occurrence a2 b2 [] (by rw [← h2]; exact h)
    rw [← hab] at e1
    rw [← h2, e1] at e2
    simp at e2
    exact ⟨e2.1.symm, e2.2.symm⟩
  · rintro ⟨a, b, hab, huniq⟩
    have h1 : 1 ≤ occurrences "==>".toList line := by
      rw [hab]
      exact occurrences_arrow_pos a b
    by_contra hne
    obtain ⟨x, y, x2, y2, hx, hx2, hxne⟩ := exists_two_arrows line (by omega)
    exact hxne ((huniq x y hx).1.trans (huniq x2 y2 hx2).1.symm)

theorem split_arrow (line : Str) :
    split line "==>".toList = splitAux "==>".toList line 0 [] := by
  unfold split
  rw [if_neg (by decide)]

/-- C10: a line of the replacement file adds an entry exactly when it holds the
separator `==>` exactly once (it can be cut at a separator in one way only);
the entry then maps the text before the separator to the text after it.  Every
other line, the empty one included, leaves the map as it is.  So `foo==>bar`
gives `foo -> bar`, and `foo` and `a==>b==>c` give nothing. -/
theorem replaceMapStep_spec :
    (∀ (m : GoMap Str) (line a b : Str), line = a ++ "==>".toList ++ b →
      (∀ a2 b2, line = a2 ++ "==>".toList ++ b2 → a2 = a ∧ b2 = b) →
      replaceMapStep m line = mapSet m a b ∧ mapGet (replaceMapStep m line) a = some b) ∧
    (∀ (m : GoMap Str) (line : Str),
      ¬ (∃ a b, line = a ++ "==>".toList ++ b ∧
        ∀ a2 b2, line = a2 ++ "==>".toList ++ b2 → a2 = a ∧ b2 = b) →
      replaceMapStep m line = m) ∧
    (∀ line : Str, occurrences "==>".toList line = 1 ↔
      ∃ a b, line = a ++ "==>".toList ++ b ∧
        ∀ a2 b2, line = a2 ++ "==>".toList ++ b2 → a2 = a ∧ b2 = b) ∧
    replaceMapStep [] "foo==>bar".toList = [("foo".toList, "bar".toList)] ∧
    (∀ m : GoMap Str, replaceMapStep m "foo".toList = m) ∧
    (∀ m : GoMap Str, replaceMapStep m "a==>b==>c".toList = m) ∧
    loadReplaceMap "foo==>bar\nfoo\n\na==>b==>c\n".toList = [("foo".toList, "bar".toList)] := by
  have hskip : ∀ (m : GoMap Str) (line : Str), occurrences "==>".toList line ≠ 1 →
      replaceMapStep m line = m := by
    intro m line hocc
    unfold replaceMapStep
    by_cases hl : line = []
    · rw [if_pos hl]
    · rw [if_neg hl]
      have hlen := (splitAux_arrow_length_join line.length line [] (Nat.le_refl _)).1
      rw [← split_arrow] at hlen
      have hne : (split line "==>".toList).length ≠ 2 := by omega
      simp only [hne, ne_eq, not_false_eq_true, if_true]
  refine ⟨fun m line a b hab huniq => ?_, fun m line hno => ?_, occurrences_arrow_eq_one_iff,
    by decide, fun m => hskip m _ (by decide), fun m => hskip m _ (by decide), by decide⟩
  · have hocc : occurrences "==>".toList line = 1 :=
      (occurrences_arrow_eq_one_iff line).2 ⟨a, b, hab, huniq⟩
    have hsplit : split line "==>".toList = [a, b] := by
      rw [split_arrow, hab]
      rw [hab] at hocc
      simpa using splitAux_arrow_of_one_occurrence a b [] hocc
    have hl : line ≠ [] := by
      intro e
      rw [e] at hocc
      revert hocc
      decide
    have hstep : replaceMapStep m line = mapSet m a b := by
      unfold replaceMapStep
      rw [if_neg hl]
      simp only [hsplit]
      rfl
    rw [hstep]
    exact ⟨rfl, mapGet_mapSet_self m a b⟩
  · exact hskip m line (fun h => hno ((occurrences_arrow_eq_one_iff line).1 h))

theorem replaceMapStep_spec_witness :
    replaceMapStep [("x".toList, "y".toList)] "foo==>bar".toList
      = mapSet [("x".toList, "y".toList)] "foo".toList "bar".toList :=
  (replaceMapStep_spec.1 [("x".toList, "y".toList)] "foo==>bar".toList "foo".toList
    "bar".toList rfl
    (fun a2 b2 h2 => by
      obtain ⟨a, b, hab, huniq⟩ :=
        (occurrences_arrow_eq_one_iff "foo==>bar".toList).1 (by decide)
      have e1 := huniq "foo".toList "bar".toList rfl
      have e2 := huniq a2 b2 h2
      exact ⟨e2.1.trans e1.1.symm, e2.2.trans e1.2.symm⟩)).1

/-! ## More lemmas on maps and sets -/

theorem mapGet_mapSet {V : Type} (m : GoMap V) (k k2 : Str) (v : V) :
    mapGet (mapSet m k v) k2 = if k = k2 then some v else mapGet m k2 := by
  induction m with
  | nil => simp [mapSet, mapGet]
  | cons e rest ih =>
    obtain ⟨k1, v1⟩ := e
    unfold mapSet
    by_cases hk : k1 = k
    · rw [if_pos hk]
      subst hk
      by_cases h2 : k1 = k2 <;> simp [mapGet, h2]
    · rw [if_neg hk]
      unfold mapGet
      rw [ih]
      by_cases h3 : k1 = k2
      · have h2 : ¬ k = k2 := fun e => hk (h3.trans e.symm)
        simp only [if_pos h3, if_neg h2]
      · simp only [if_neg h3]

/-- Writing the value a key already has changes nothing. -/
theorem mapSet_of_mapGet {V : Type} (m : GoMap V) (k : Str) (v : V)
    (h : mapGet m k = some v) : mapSet m k v = m := by
  induction m with
  | nil => simp [mapGet] at h
  | cons e rest ih =>
    obtain ⟨k1, v1⟩ := e
    unfold mapSet
    by_cases hk : k1 = k
    · subst hk
      simp [mapGet] at h
      simp [h]
    · simp only [mapGet, hk, if_false] at h
      simp [hk, ih h]

theorem mem_setInsert (s : GoSet) (k u : Str) : u ∈ setInsert s k ↔ u = k ∨ u ∈ s := by
  unfold setInsert
  split_ifs with h
  · constructor
    · exact Or.inr
    · rintro (e | e)
      · rw [e]; exact h
      · exact e
  · rw [List.mem_append, List.mem_singleton]
    exact Or.comm

theorem setInsert_of_mem (s : GoSet) (k : Str) (h : k ∈ s) : setInsert s k = s := by
  unfold setInsert
  rw [if_pos h]

/-- The set of an entity after `addMatch`, and the sets of the others. -/
theorem mapGet_addMatch (m : GoMap GoSet) (f t k : Str) :
    mapGet (addMatch m f t) k
      = if f = k then some (setInsert ((mapGet m f).getD []) t) else mapGet m k := by
  unfold addMatch
  cases h : mapGet m f with
  | none => simp only [mapGet_mapSet, Option.getD_none]
  | some terms => simp only [mapGet_mapSet, Option.getD_some]

theorem mem_mapKeys_iff {V : Type} (m : GoMap V) (k : Str) :
    k ∈ mapKeys m ↔ (mapGet m k).isSome = true := by
  induction m with
  | nil => simp [mapKeys, mapGet]
  | cons e rest ih =>
    obtain ⟨k1, v1⟩ := e
    show k ∈ k1 :: mapKeys rest ↔ (mapGet ((k1, v1) :: rest) k).isSome = true
    unfold mapGet
    rw [List.mem_cons, ih]
    by_cases hk : k1 = k
    · rw [if_pos hk]
      exact ⟨fun _ => rfl, fun _ => Or.inl hk.symm⟩
    · rw [if_neg hk]
      exact ⟨fun h => h.resolve_left (fun e => hk e.symm), Or.inr⟩

/-! ## The match records as sets -/

/-- C16: `addMatch` makes the term a member of the set of the entity, leaves
the set of every other entity and every other member of the set of this entity
as they are, and a second call with the same entity and term changes
nothing. -/
theorem addMatch_set_semantics (m : GoMap GoSet) (file term : Str) :
    (∃ s, mapGet (addMatch m file term) file = some s ∧ term ∈ s) ∧
    (∀ other : Str, other ≠ file → mapGet (addMatch m file term) other = mapGet m other) ∧
    (∀ u : Str, u ≠ term →
      (u ∈ (mapGet (addMatch m file term) file).getD [] ↔ u ∈ (mapGet m file).getD [])) ∧
    addMatch (addMatch m file term) file term = addMatch m file term := by
  refine ⟨addMatch_mem m file term, fun other ho => ?_, fun u hu => ?_, ?_⟩
  · rw [mapGet_addMatch, if_neg (fun e => ho e.symm)]
  · rw [mapGet_addMatch, if_pos rfl, Option.getD_some, mem_setInsert]
    exact ⟨fun h => h.resolve_left hu, Or.inr⟩
  · have hget := mapGet_addMatch m file term file
    rw [if_pos rfl] at hget
    have hmem : term ∈ setInsert ((mapGet m file).getD []) term := mem_setInsert_self _ _
    show (match mapGet (addMatch m file term) file with
      | none => mapSet (addMatch m file term) file (setInsert [] term)
      | some terms => mapSet (addMatch m file term) file (setInsert terms term))
      = addMatch m file term
    rw [hget]
    show mapSet (addMatch m file term) file
      (setInsert (setInsert ((mapGet m file).getD []) term) term) = addMatch m file term
    rw [setInsert_of_mem _ _ hmem]
    exact mapSet_of_mapGet _ _ _ hget

theorem addMatch_set_semantics_witness :
    "b.txt".toList ≠ "a.txt".toList ∧
    mapGet (addMatch [("b.txt".toList, ["x".toList])] "a.txt".toList "token".toList)
      "b.txt".toList = mapGet [("b.txt".toList, ["x".toList])] "b.txt".toList :=
  ⟨by decide,
    (addMatch_set_semantics [("b.txt".toList, ["x".toList])] "a.txt".toList
      "token".toList).2.1 "b.txt".toList (by decide)⟩

/-! ## The term loop, record by record -/

/-- One step of the term loop, written out for each variable. -/
theorem recordTerm_eq (lower : Char → Char) (ci : Bool) (line : Str) (b : Bool) (st : State)
    (t : Str) :
    recordTerm lower ci line b st t =
      { curFile := st.curFile, curCommit := st.curCommit,
        matchingFiles :=
          if (stringContains lower line t ci && decide (st.curFile ≠ [])) = true
          then mapSet st.matchingFiles st.curFile false else st.matchingFiles,
        matchingContents :=
          if (stringContains lower line t ci && decide (st.curFile ≠ []) && !b) = true
          then addMatch st.matchingContents st.curFile t else st.matchingContents,
        matchingFileNames :=
          if (stringContains lower line t ci && decide (st.curFile ≠ []) && b) = true
          then addMatch st.matchingFileNames st.curFile t else st.matchingFileNames,
        matchingCommits :=
          if (stringContains lower line t ci && decide (st.curCommit ≠ [])) = true
          then addMatch st.matchingCommits st.curCommit t else st.matchingCommits } := by
  obtain ⟨cf, cc, mf, mc, mn, mm⟩ := st
  unfold recordTerm
  cases hm : stringContains lower line t ci <;> cases b <;>
    by_cases hf : cf = [] <;> by_cases hc : cc = [] <;> simp [hf, hc]

/-- The term loop of one line, written out for each variable. -/
theorem foldl_recordTerm_eq (lower : Char → Char) (ci : Bool) (line : Str) (b : Bool)
    (terms : List Str) (st : State) :
    terms.foldl (recordTerm lower ci line b) st =
      { curFile := st.curFile, curCommit := st.curCommit,
        matchingFiles := terms.foldl
          (fun m t => if (stringContains lower line t ci && decide (st.curFile ≠ [])) = true
            then mapSet m st.curFile false else m) st.matchingFiles,
        matchingContents := terms.foldl
          (fun m t =>
            if (stringContains lower line t ci && decide (st.curFile ≠ []) && !b) = true
            then addMatch m st.curFile t else m) st.matchingContents,
        matchingFileNames := terms.foldl
          (fun m t =>
            if (stringContains lower line t ci && decide (st.curFile ≠ []) && b) = true
            then addMatch m st.curFile t else m) st.matchingFileNames,
        matchingCommits := terms.foldl
          (fun m t => if (stringContains lower line t ci && decide (st.curCommit ≠ [])) = true
            then addMatch m st.curCommit t else m) st.matchingCommits } := by
  induction terms generalizing st with
  | nil => rfl
  | cons t ts ih =>
    rw [List.foldl_cons, ih, recordTerm_eq]
    rfl

/-- The keys after a loop of conditional updates that all create the key `f`. -/
theorem foldl_update_isSome {V : Type} (upd : GoMap V → Str → GoMap V) (f : Str)
    (hupd : ∀ m t k, (mapGet (upd m t) k).isSome = true ↔ k = f ∨ (mapGet m k).isSome = true)
    (c : Str → Bool) (terms : List Str) (m : GoMap V) (k : Str) :
    (mapGet (terms.foldl (fun m t => if c t = true then upd m t else m) m) k).isSome = true ↔
      (mapGet m k).isSome = true ∨ (k = f ∧ ∃ u ∈ terms, c u = true) := by
  induction terms generalizing m with
  | nil => simp
  | cons t ts ih =>
    rw [List.foldl_cons, ih]
    by_cases hc : c t = true
    · rw [if_pos hc, hupd]
      constructor
      · rintro ((h | h) | ⟨h1, u, hu, h2⟩)
        · exact Or.inr ⟨h, t, List.mem_cons_self _ _, hc⟩
        · exact Or.inl h
        · exact Or.inr ⟨h1, u, List.mem_cons_of_mem _ hu, h2⟩
      · rintro (h | ⟨h1, u, hu, h2⟩)
        · exact Or.inl (Or.inr h)
        · exact Or.inl (Or.inl h1)
    · rw [if_neg hc]
      constructor
      · rintro (h | ⟨h1, u, hu, h2⟩)
        · exact Or.inl h
        · exact Or.inr ⟨h1, u, List.mem_cons_of_mem _ hu, h2⟩
      · rintro (h | ⟨h1, u, hu, h2⟩)
        · exact Or.inl h
        · rcases List.mem_cons.1 hu with e | hu
          · exact absurd (e ▸ h2) hc
          · exact Or.inr ⟨h1, u, hu, h2⟩

theorem isSome_mapSet {V : Type} (m : GoMap V) (f k : Str) (v : V) :
    (mapGet (mapSet m f v) k).isSome = true ↔ k = f ∨ (mapGet m k).isSome = true := by
  rw [mapGet_mapSet]
  by_cases h : f = k
  · rw [if_pos h]
    exact ⟨fun _ => Or.inl h.symm, fun _ => rfl⟩
  · rw [if_neg h]
    exact ⟨Or.inr, fun e => e.resolve_left (fun e2 => h e2.symm)⟩

theorem isSome_addMatch (m : GoMap GoSet) (f t k : Str) :
    (mapGet (addMatch m f t) k).isSome = true ↔ k = f ∨ (mapGet m k).isSome = true := by
  rw [mapGet_addMatch]
  by_cases h : f = k
  · rw [if_pos h]
    exact ⟨fun _ => Or.inl h.symm, fun _ => rfl⟩
  · rw [if_neg h]
    exact ⟨Or.inr, fun e => e.resolve_left (fun e2 => h e2.symm)⟩

theorem mem_addMatch (m : GoMap GoSet) (f t k u : Str) :
    u ∈ (mapGet (addMatch m f t) k).getD [] ↔
      (k = f ∧ u = t) ∨ u ∈ (mapGet m k).getD [] := by
  rw [mapGet_addMatch]
  by_cases h : f = k
  · subst h
    rw [if_pos rfl, Option.getD_some, mem_setInsert]
    constructor
    · rintro (e | e)
      · exact Or.inl ⟨rfl, e⟩
      · exact Or.inr e
    · rintro (⟨_, e⟩ | e)
      · exact Or.inl e
      · exact Or.inr e
  · rw [if_neg h]
    exact ⟨Or.inr, fun e => e.resolve_left (fun e2 => h e2.1.symm)⟩

/-- The members after a loop of conditional calls of `addMatch` for the entity
`f`. -/
theorem foldl_addMatch_mem (f : Str) (c : Str → Bool) (terms : List Str) (m : GoMap GoSet)
    (k u : Str) :
    u ∈ (mapGet (terms.foldl (fun m t => if c t = true then addMatch m f t else m) m) k).getD []
      ↔ u ∈ (mapGet m k).getD [] ∨ (k = f ∧ u ∈ terms ∧ c u = true) := by
  induction terms generalizing m with
  | nil => simp
  | cons t ts ih =>
    rw [List.foldl_cons, ih]
    by_cases hc : c t = true
    · rw [if_pos hc, mem_addMatch]
      constructor
      · rintro ((⟨h1, h2⟩ | h) | ⟨h1, hu, h2⟩)
        · exact Or.inr ⟨h1, h2 ▸ List.mem_cons_self _ _, h2 ▸ hc⟩
        · exact Or.inl h
        · exact Or.inr ⟨h1, List.mem_cons_of_mem _ hu, h2⟩
      · rintro (h | ⟨h1, hu, h2⟩)
        · exact Or.inl (Or.inr h)
        · rcases List.mem_cons.1 hu with e | hu
          · exact Or.inl (Or.inl ⟨h1, e⟩)
          · exact Or.inr ⟨h1, hu, h2⟩
    · rw [if_neg hc]
      constructor
      · rintro (h | ⟨h1, hu, h2⟩)
        · exact Or.inl h
        · exact Or.inr ⟨h1, List.mem_cons_of_mem _ hu, h2⟩
      · rintro (h | ⟨h1, hu, h2⟩)
        · exact Or.inl h
        · rcases List.mem_cons.1 hu with e | hu
          · exact absurd (e ▸ h2) hc
          · exact Or.inr ⟨h1, hu, h2⟩

/-! ## The classification of the files -/

theorem parseLine_maps (st : State) (line : Str) :
    (parseLine st line).1.matchingFiles = st.matchingFiles ∧
    (parseLine st line).1.matchingContents = st.matchingContents ∧
    (parseLine st line).1.matchingFileNames = st.matchingFileNames ∧
    (parseLine st line).1.matchingCommits = st.matchingCommits := by
  unfold parseLine parseCommit parseDiff
  dsimp only
  split_ifs <;> exact ⟨rfl, rfl, rfl, rfl⟩

/-- One line keeps the keys of `matchingFiles` equal to the keys of the two
records of the files. -/
theorem processLine_keys (lower : Char → Char) (ci : Bool) (st : State) (line : Str)
    (terms : List Str)
    (h : ∀ k, (mapGet st.matchingFiles k).isSome = true ↔
      (mapGet st.matchingContents k).isSome = true ∨
      (mapGet st.matchingFileNames k).isSome = true) (k : Str) :
    (mapGet (processLine lower ci st line terms).matchingFiles k).isSome = true ↔
      (mapGet (processLine lower ci st line terms).matchingContents k).isSome = true ∨
      (mapGet (processLine lower ci st line terms).matchingFileNames k).isSome = true := by
  obtain ⟨h1, h2, h3, _⟩ := parseLine_maps st line
  unfold processLine
  rw [foldl_recordTerm_eq]
  dsimp only
  rw [foldl_update_isSome (fun m _ => mapSet m (parseLine st line).1.curFile false)
      (parseLine st line).1.curFile (fun m _ k => isSome_mapSet m _ k false)
      (fun t => stringContains lower line t ci && decide ((parseLine st line).1.curFile ≠ [])),
    foldl_update_isSome (fun m t => addMatch m (parseLine st line).1.curFile t)
      (parseLine st line).1.curFile (fun m t k => isSome_addMatch m _ t k)
      (fun t => stringContains lower line t ci && decide ((parseLine st line).1.curFile ≠ [])
        && !(parseLine st line).2),
    foldl_update_isSome (fun m t => addMatch m (parseLine st line).1.curFile t)
      (parseLine st line).1.curFile (fun m t k => isSome_addMatch m _ t k)
      (fun t => stringContains lower line t ci && decide ((parseLine st line).1.curFile ≠ [])
        && (parseLine st line).2),
    h1, h2, h3, h k]
  cases (parseLine st line).2
  · simp only [Bool.not_false, Bool.and_true, Bool.and_false, Bool.false_eq_true, and_false,
      exists_false, or_false]
    generalize (∃ u ∈ terms, (stringContains lower line u ci &&
      decide ((parseLine st line).1.curFile ≠ [])) = true) = P
    tauto
  · simp only [Bool.not_true, Bool.and_true, Bool.and_false, Bool.false_eq_true, and_false,
      exists_false, or_false]
    generalize (∃ u ∈ terms, (stringContains lower line u ci &&
      decide ((parseLine st line).1.curFile ≠ [])) = true) = P
    tauto

theorem scanFrom_keys (lower : Char → Char) (ci : Bool) (input : List (Str × List Str))
    (st : State)
    (h : ∀ k, (mapGet st.matchingFiles k).isSome = true ↔
      (mapGet st.matchingContents k).isSome = true ∨
      (mapGet st.matchingFileNames k).isSome = true) (k : Str) :
    (mapGet (scanFrom lower ci st input).matchingFiles k).isSome = true ↔
      (mapGet (scanFrom lower ci st input).matchingContents k).isSome = true ∨
      (mapGet (scanFrom lower ci st input).matchingFileNames k).isSome = true := by
  induction input generalizing st with
  | nil => exact h k
  | cons p ps ih =>
    unfold scanFrom
    rw [List.foldl_cons]
    exact ih _ (processLine_keys lower ci st p.1 p.2 h)

theorem mapKeys_mapSet_of_mem {V : Type} (m : GoMap V) (k : Str) (v : V) (h : k ∈ mapKeys m) :
    mapKeys (mapSet m k v) = mapKeys m := by
  induction m with
  | nil => simp [mapKeys] at h
  | cons e rest ih =>
    obtain ⟨k1, v1⟩ := e
    unfold mapSet
    by_cases hk : k1 = k
    · rw [if_pos hk, hk]
      rfl
    · rw [if_neg hk]
      have hr : k ∈ mapKeys rest := by
        have h2 : k ∈ k1 :: mapKeys rest := h
        exact (List.mem_cons.1 h2).resolve_left (fun e => hk e.symm)
      show k1 :: mapKeys (mapSet rest k v) = k1 :: mapKeys rest
      rw [ih hr]

/-- The classifier keeps the list of keys. -/
theorem classify_keys (notExist : Str → Bool) (visit : List Str) (m : GoMap Bool)
    (h : ∀ f ∈ visit, f ∈ mapKeys m) : mapKeys (classify notExist visit m) = mapKeys m := by
  induction visit generalizing m with
  | nil => rfl
  | cons f fs ih =>
    unfold classify
    rw [List.foldl_cons]
    have hf := mapKeys_mapSet_of_mem m f (notExist f) (h f (List.mem_cons_self _ _))
    have := ih (mapSet m f (notExist f))
      (fun g hg => by rw [hf]; exact h g (List.mem_cons_of_mem _ hg))
    unfold classify at this
    rw [this, hf]

/-- The classifier gives every visited key the result of the test. -/
theorem classify_get (notExist : Str → Bool) (visit : List Str) (m : GoMap Bool) (k : Str) :
    mapGet (classify notExist visit m) k
      = if k ∈ visit then some (notExist k) else mapGet m k := by
  induction visit generalizing m with
  | nil => simp [classify]
  | cons f fs ih =>
    have hstep : classify notExist (f :: fs) m = classify notExist fs (mapSet m f (notExist f)) :=
      rfl
    rw [hstep, ih, mapGet_mapSet]
    by_cases h1 : k ∈ fs
    · simp [h1]
    · by_cases h2 : f = k
      · subst h2
        simp
      · have h3 : ¬ k = f := fun e => h2 e.symm
        simp [h1, h2, h3]

/-- C19: after the scanning loop the keys of `matchingFiles` are the keys of
`matchingContents` together with the keys of `matchingFileNames`; the
classifier, in whatever order it visits these keys, keeps the list of keys as
it is and gives every key the result of the test of the working tree. -/
theorem classification_domain (lower : Char → Char) (ci : Bool)
    (input : List (Str × List Str)) (notExist : Str → Bool) (visit : List Str)
    (hv : visit.Perm (mapKeys (scan lower ci input).matchingFiles)) :
    (∀ k, k ∈ mapKeys (scan lower ci input).matchingFiles ↔
      k ∈ mapKeys (scan lower ci input).matchingContents ∨
      k ∈ mapKeys (scan lower ci input).matchingFileNames) ∧
    mapKeys (classify notExist visit (scan lower ci input).matchingFiles)
      = mapKeys (scan lower ci input).matchingFiles ∧
    (∀ k ∈ mapKeys (scan lower ci input).matchingFiles,
      mapGet (classify notExist visit (scan lower ci input).matchingFiles) k
        = some (notExist k)) := by
  refine ⟨fun k => ?_, ?_, fun k hk => ?_⟩
  · rw [mem_mapKeys_iff, mem_mapKeys_iff, mem_mapKeys_iff]
    exact scanFrom_keys lower ci input State.init (fun k => by simp [State.init, mapGet]) k
  · exact classify_keys notExist visit _ (fun f hf => hv.subset hf)
  · rw [classify_get, if_pos (hv.symm.subset hk)]

theorem classification_domain_witness :
    ["a.txt".toList, "b.txt".toList].Perm
      (mapKeys (scan Char.toLower false
        [("diff --git a/b.txt b/b.txt".toList, ["txt".toList]),
         ("diff --git a/a.txt b/a.txt".toList, ["txt".toList])]).matchingFiles) ∧
    mapKeys (classify (fun f => f == "a.txt".toList) ["a.txt".toList, "b.txt".toList]
      (scan Char.toLower false
        [("diff --git a/b.txt b/b.txt".toList, ["txt".toList]),
         ("diff --git a/a.txt b/a.txt".toList, ["txt".toList])]).matchingFiles)
      = ["b.txt".toList, "a.txt".toList] :=
  ⟨by decide,
    (classification_domain Char.toLower false
      [("diff --git a/b.txt b/b.txt".toList, ["txt".toList]),
       ("diff --git a/a.txt b/a.txt".toList, ["txt".toList])]
      (fun f => f == "a.txt".toList) ["a.txt".toList, "b.txt".toList] (by decide)).2.1⟩

/-! ## Independence of the visiting order -/

theorem sameRecord_iff (m1 m2 : GoMap GoSet) :
    SameRecord m1 m2 ↔
      ∀ k, ((mapGet m1 k).isSome = true ↔ (mapGet m2 k).isSome = true) ∧
        ∀ u, u ∈ (mapGet m1 k).getD [] ↔ u ∈ (mapGet m2 k).getD [] := by
  unfold SameRecord
  refine forall_congr' (fun k => ?_)
  cases h1 : mapGet m1 k <;> cases h2 : mapGet m2 k
  · simp
  · simp
  · simp
  · simp only [Option.map_some', Option.some.injEq, Option.isSome_some, true_iff,
      Option.getD_some, true_and]
    rw [Finset.ext_iff]
    simp only [List.mem_toFinset]

theorem sameRecord_refl (m : GoMap GoSet) : SameRecord m m :=
  fun _ => rfl

/-- A loop of conditional calls of `addMatch` gives the same map of sets for
two orders of the terms. -/
theorem foldl_addMatch_sameRecord (f : Str) (c : Str → Bool) (terms1 terms2 : List Str)
    (m1 m2 : GoMap GoSet) (hp : terms1.Perm terms2) (h : SameRecord m1 m2) :
    SameRecord (terms1.foldl (fun m t => if c t = true then addMatch m f t else m) m1)
      (terms2.foldl (fun m t => if c t = true then addMatch m f t else m) m2) := by
  rw [sameRecord_iff] at h ⊢
  intro k
  refine ⟨?_, fun u => ?_⟩
  · rw [foldl_update_isSome (fun m t => addMatch m f t) f (fun m t k => isSome_addMatch m f t k),
      foldl_update_isSome (fun m t => addMatch m f t) f (fun m t k => isSome_addMatch m f t k),
      (h k).1]
    have he : (∃ u ∈ terms1, c u = true) ↔ (∃ u ∈ terms2, c u = true) :=
      ⟨fun ⟨u, hu, hc⟩ => ⟨u, hp.subset hu, hc⟩, fun ⟨u, hu, hc⟩ => ⟨u, hp.symm.subset hu, hc⟩⟩
    rw [he]
  · rw [foldl_addMatch_mem, foldl_addMatch_mem, (h k).2 u, hp.mem_iff]

theorem parseLine_congr (st1 st2 : State) (line : Str) (hf : st1.curFile = st2.curFile)
    (hc : st1.curCommit = st2.curCommit) :
    (parseLine st1 line).1.curFile = (parseLine st2 line).1.curFile ∧
    (parseLine st1 line).1.curCommit = (parseLine st2 line).1.curCommit ∧
    (parseLine st1 line).2 = (parseLine st2 line).2 := by
  unfold parseLine parseCommit parseDiff
  dsimp only
  split_ifs <;> exact ⟨by first | rfl | exact hf, by first | rfl | exact hc, rfl⟩

/-- One line, processed from two states with the same context and the same
records, with the terms in two orders. -/
theorem processLine_sameRecord (lower : Char → Char) (ci : Bool) (st1 st2 : State)
    (line : Str) (terms1 terms2 : List Str) (hp : terms1.Perm terms2)
    (hf : st1.curFile = st2.curFile) (hc : st1.curCommit = st2.curCommit)
    (h1 : SameRecord st1.matchingContents st2.matchingContents)
    (h2 : SameRecord st1.matchingFileNames st2.matchingFileNames)
    (h3 : SameRecord st1.matchingCommits st2.matchingCommits) :
    (processLine lower ci st1 line terms1).curFile
      = (processLine lower ci st2 line terms2).curFile ∧
    (processLine lower ci st1 line terms1).curCommit
      = (processLine lower ci st2 line terms2).curCommit ∧
    SameRecord (processLine lower ci st1 line terms1).matchingContents
      (processLine lower ci st2 line terms2).matchingContents ∧
    SameRecord (processLine lower ci st1 line terms1).matchingFileNames
      (processLine lower ci st2 line terms2).matchingFileNames ∧
    SameRecord (processLine lower ci st1 line terms1).matchingCommits
      (processLine lower ci st2 line terms2).matchingCommits := by
  obtain ⟨g1, g2, g3⟩ := parseLine_congr st1 st2 line hf hc
  obtain ⟨_, a2, a3, a4⟩ := parseLine_maps st1 line
  obtain ⟨_, b2, b3, b4⟩ := parseLine_maps st2 line
  unfold processLine
  rw [foldl_recordTerm_eq, foldl_recordTerm_eq]
  dsimp only
  rw [g1, g2, g3, a2, a3, a4, b2, b3, b4]
  exact ⟨rfl, rfl,
    foldl_addMatch_sameRecord _ (fun t => stringContains lower line t ci &&
      decide ((parseLine st2 line).1.curFile ≠ []) && !(parseLine st2 line).2) _ _ _ _ hp h1,
    foldl_addMatch_sameRecord _ (fun t => stringContains lower line t ci &&
      decide ((parseLine st2 line).1.curFile ≠ []) && (parseLine st2 line).2) _ _ _ _ hp h2,
    foldl_addMatch_sameRecord _ (fun t => stringContains lower line t ci &&
      decide ((parseLine st2 line).1.curCommit ≠ [])) _ _ _ _ hp h3⟩

theorem scanFrom_sameRecord (lower : Char → Char) (ci : Bool)
    (input1 input2 : List (Str × List Str))
    (h : List.Forall₂ (fun p q => p.1 = q.1 ∧ p.2.Perm q.2) input1 input2)
    (st1 st2 : State) (hf : st1.curFile = st2.curFile) (hc : st1.curCommit = st2.curCommit)
    (h1 : SameRecord st1.matchingContents st2.matchingContents)
    (h2 : SameRecord st1.matchingFileNames st2.matchingFileNames)
    (h3 : SameRecord st1.matchingCommits st2.matchingCommits) :
    SameRecord (scanFrom lower ci st1 input1).matchingContents
      (scanFrom lower ci st2 input2).matchingContents ∧
    SameRecord (scanFrom lower ci st1 input1).matchingFileNames
      (scanFrom lower ci st2 input2).matchingFileNames ∧
    SameRecord (scanFrom lower ci st1 input1).matchingCommits
      (scanFrom lower ci st2 input2).matchingCommits := by
  induction h generalizing st1 st2 with
  | nil => exact ⟨h1, h2, h3⟩
  | @cons p q ps qs hpq _ ih =>
    obtain ⟨k1, k2, k3, k4, k5⟩ :=
      processLine_sameRecord lower ci st1 st2 p.1 p.2 q.2 hpq.2 hf hc h1 h2 h3
    have hstep1 : scanFrom lower ci st1 (p :: ps)
        = scanFrom lower ci (processLine lower ci st1 p.1 p.2) ps := rfl
    have hstep2 : scanFrom lower ci st2 (q :: qs)
        = scanFrom lower ci (processLine lower ci st2 q.1 q.2) qs := rfl
    rw [hstep1, hstep2, ← hpq.1]
    exact ih _ _ k1 k2 k3 k4 k5

/-- C17: the three records that the scanning loop builds depend on the lines,
the terms and the case flag only.  Two runs over the same lines in which the
terms are visited in different orders, even in a different order on each
line, end with the same `matchingContents`, `matchingFileNames` and
`matchingCommits`: the same keys, and the same set of terms for each key. -/
theorem pipeline_determinism (lower : Char → Char) (ci : Bool) :
    (∀ input1 input2 : List (Str × List Str),
      List.Forall₂ (fun p q => p.1 = q.1 ∧ p.2.Perm q.2) input1 input2 →
      SameRecord (scan lower ci input1).matchingContents
        (scan lower ci input2).matchingContents ∧
      SameRecord (scan lower ci input1).matchingFileNames
        (scan lower ci input2).matchingFileNames ∧
      SameRecord (scan lower ci input1).matchingCommits
        (scan lower ci input2).matchingCommits) ∧
    (∀ (terms1 terms2 : List Str) (out : Str), terms1.Perm terms2 →
      SameRecord (scanText lower ci terms1 out).matchingContents
        (scanText lower ci terms2 out).matchingContents ∧
      SameRecord (scanText lower ci terms1 out).matchingFileNames
        (scanText lower ci terms2 out).matchingFileNames ∧
      SameRecord (scanText lower ci terms1 out).matchingCommits
        (scanText lower ci terms2 out).matchingCommits) := by
  have main : ∀ input1 input2 : List (Str × List Str),
      List.Forall₂ (fun p q => p.1 = q.1 ∧ p.2.Perm q.2) input1 input2 →
      SameRecord (scan lower ci input1).matchingContents
        (scan lower ci input2).matchingContents ∧
      SameRecord (scan lower ci input1).matchingFileNames
        (scan lower ci input2).matchingFileNames ∧
      SameRecord (scan lower ci input1).matchingCommits
        (scan lower ci input2).matchingCommits :=
    fun input1 input2 h =>
      scanFrom_sameRecord lower ci input1 input2 h State.init State.init rfl rfl
        (sameRecord_refl _) (sameRecord_refl _) (sameRecord_refl _)
  refine ⟨main, fun terms1 terms2 out hp => ?_⟩
  unfold scanText
  apply main
  rw [List.forall₂_map_left_iff, List.forall₂_map_right_iff]
  exact List.forall₂_same.2 (fun _ _ => ⟨rfl, hp⟩)

theorem pipeline_determinism_witness :
    ["token".toList, "key".toList].Perm ["key".toList, "token".toList] ∧
    SameRecord
      (scanText Char.toLower false ["token".toList, "key".toList]
        "commit c1\ndiff --git a/k.txt b/k.txt\n+key token".toList).matchingContents
      (scanText Char.toLower false ["key".toList, "token".toList]
        "commit c1\ndiff --git a/k.txt b/k.txt\n+key token".toList).matchingContents :=
  ⟨by decide,
    ((pipeline_determinism Char.toLower false).2 ["token".toList, "key".toList]
      ["key".toList, "token".toList]
      "commit c1\ndiff --git a/k.txt b/k.txt\n+key token".toList (by decide)).1⟩

/-! ## The case flag -/

/-- A match without the flag is a match with the flag. -/
theorem stringContains_mono (lower : Char → Char) (line term : Str)
    (h : stringContains lower line term false = true) :
    stringContains lower line term true = true := by
  unfold stringContains at h ⊢
  simp only [Bool.false_eq_true, if_false] at h
  simp only [if_true]
  unfold toLower
  rw [contains_iff_substring] at h ⊢
  exact List.IsInfix.map lower h

/-- A loop of conditional calls of `addMatch` under a weaker condition, from a
larger record, ends with a larger record. -/
theorem foldl_addMatch_mono (f : Str) (c1 c2 : Str → Bool) (terms : List Str)
    (m1 m2 : GoMap GoSet) (hc : ∀ t, c1 t = true → c2 t = true)
    (h : ∀ k u, u ∈ (mapGet m1 k).getD [] → u ∈ (mapGet m2 k).getD []) (k u : Str)
    (hu : u ∈ (mapGet
      (terms.foldl (fun m t => if c1 t = true then addMatch m f t else m) m1) k).getD []) :
    u ∈ (mapGet
      (terms.foldl (fun m t => if c2 t = true then addMatch m f t else m) m2) k).getD [] := by
  rw [foldl_addMatch_mem] at hu ⊢
  rcases hu with hu | ⟨e1, e2, e3⟩
  · exact Or.inl (h k u hu)
  · exact Or.inr ⟨e1, e2, hc u e3⟩

theorem processLine_mono (lower : Char → Char) (st1 st2 : State) (line : Str)
    (terms : List Str) (hf : st1.curFile = st2.curFile) (hc : st1.curCommit = st2.curCommit)
    (h1 : ∀ k u, u ∈ (mapGet st1.matchingContents k).getD [] →
      u ∈ (mapGet st2.matchingContents k).getD [])
    (h2 : ∀ k u, u ∈ (mapGet st1.matchingFileNames k).getD [] →
      u ∈ (mapGet st2.matchingFileNames k).getD [])
    (h3 : ∀ k u, u ∈ (mapGet st1.matchingCommits k).getD [] →
      u ∈ (mapGet st2.matchingCommits k).getD []) :
    (processLine lower false st1 line terms).curFile
      = (processLine lower true st2 line terms).curFile ∧
    (processLine lower false st1 line terms).curCommit
      = (processLine lower true st2 line terms).curCommit ∧
    (∀ k u, u ∈ (mapGet (processLine lower false st1 line terms).matchingContents k).getD [] →
      u ∈ (mapGet (processLine lower true st2 line terms).matchingContents k).getD []) ∧
    (∀ k u, u ∈ (mapGet (processLine lower false st1 line terms).matchingFileNames k).getD [] →
      u ∈ (mapGet (processLine lower true st2 line terms).matchingFileNames k).getD []) ∧
    (∀ k u, u ∈ (mapGet (processLine lower false st1 line terms).matchingCommits k).getD [] →
      u ∈ (mapGet (processLine lower true st2 line terms).matchingCommits k).getD []) := by
  obtain ⟨g1, g2, g3⟩ := parseLine_congr st1 st2 line hf hc
  obtain ⟨_, a2, a3, a4⟩ := parseLine_maps st1 line
  obtain ⟨_, b2, b3, b4⟩ := parseLine_maps st2 line
  have hm : ∀ (x y : Bool) (t : Str),
      (stringContains lower line t false && x && y) = true →
      (stringContains lower line t true && x && y) = true := by
    intro x y t ht
    simp only [Bool.and_eq_true] at ht ⊢
    exact ⟨⟨stringContains_mono lower line t ht.1.1, ht.1.2⟩, ht.2⟩
  have hm2 : ∀ (x : Bool) (t : Str),
      (stringContains lower line t false && x) = true →
      (stringContains lower line t true && x) = true := by
    intro x t ht
    simp only [Bool.and_eq_true] at ht ⊢
    exact ⟨stringContains_mono lower line t ht.1, ht.2⟩
  unfold processLine
  rw [foldl_recordTerm_eq, foldl_recordTerm_eq]
  dsimp only
  rw [g1, g2, g3, a2, a3, a4, b2, b3, b4]
  exact ⟨rfl, rfl,
    foldl_addMatch_mono _ _ _ terms _ _ (fun t => hm _ _ t) h1,
    foldl_addMatch_mono _ _ _ terms _ _ (fun t => hm _ _ t) h2,
    foldl_addMatch_mono _ _ _ terms _ _ (fun t => hm2 _ t) h3⟩

theorem scanFrom_mono (lower : Char → Char) (input : List (Str × List Str))
    (st1 st2 : State) (hf : st1.curFile = st2.curFile) (hc : st1.curCommit = st2.curCommit)
    (h1 : ∀ k u, u ∈ (mapGet st1.matchingContents k).getD [] →
      u ∈ (mapGet st2.matchingContents k).getD [])
    (h2 : ∀ k u, u ∈ (mapGet st1.matchingFileNames k).getD [] →
      u ∈ (mapGet st2.matchingFileNames k).getD [])
    (h3 : ∀ k u, u ∈ (mapGet st1.matchingCommits k).getD [] →
      u ∈ (mapGet st2.matchingCommits k).getD []) :
    (∀ k u, u ∈ (mapGet (scanFrom lower false st1 input).matchingContents k).getD [] →
      u ∈ (mapGet (scanFrom lower true st2 input).matchingContents k).getD []) ∧
    (∀ k u, u ∈ (mapGet (scanFrom lower false st1 input).matchingFileNames k).getD [] →
      u ∈ (mapGet (scanFrom lower true st2 input).matchingFileNames k).getD []) ∧
    (∀ k u, u ∈ (mapGet (scanFrom lower false st1 input).matchingCommits k).getD [] →
      u ∈ (mapGet (scanFrom lower true st2 input).matchingCommits k).getD []) := by
  induction input generalizing st1 st2 with
  | nil => exact ⟨h1, h2, h3⟩
  | cons p ps ih =>
    obtain ⟨k1, k2, k3, k4, k5⟩ := processLine_mono lower st1 st2 p.1 p.2 hf hc h1 h2 h3
    exact ih _ _ k1 k2 k3 k4 k5

/-! ## The two recording branches -/

/-- C18, as stated, fails: a line that is processed before any marker has an
empty context; a term that matches it is recorded neither for a file nor for a
commit, and the loop stays in its initial state. -/
theorem match_recorded_under_neither :
    stringContains Char.toLower "warning: token file".toList "token".toList false = true ∧
    (parseLine State.init "warning: token file".toList).1.curFile = [] ∧
    (parseLine State.init "warning: token file".toList).1.curCommit = [] ∧
    scan Char.toLower false [("warning: token file".toList, ["token".toList])] = State.init := by
  decide

/-- C18, amended: at the moment a matching term is visited on a line of any
input, the current file or the current commit is empty, so the two recording
branches never both apply.  With a current file the term is recorded for the
file (name record on a file-name line, content record otherwise) and
`matchingCommits` stays as it is; with a current commit the term is recorded
for the commit and the records of the files stay as they are; with neither,
the state stays as it is. -/
theorem recording_branches (lower : Char → Char) (ci : Bool) (input : List (Str × List Str))
    (line : Str) (pre : List Str) (t : Str) (st : State)
    (hst : st = pre.foldl (recordTerm lower ci line (parseLine (scan lower ci input) line).2)
      (parseLine (scan lower ci input) line).1)
    (hm : stringContains lower line t ci = true) :
    (st.curFile = [] ∨ st.curCommit = []) ∧
    (st.curFile ≠ [] →
      t ∈ (mapGet
        (if (parseLine (scan lower ci input) line).2 = true
          then (recordTerm lower ci line (parseLine (scan lower ci input) line).2 st
            t).matchingFileNames
          else (recordTerm lower ci line (parseLine (scan lower ci input) line).2 st
            t).matchingContents) st.curFile).getD [] ∧
      (recordTerm lower ci line (parseLine (scan lower ci input) line).2 st t).matchingCommits
        = st.matchingCommits) ∧
    (st.curCommit ≠ [] →
      t ∈ (mapGet (recordTerm lower ci line (parseLine (scan lower ci input) line).2 st
        t).matchingCommits st.curCommit).getD [] ∧
      (recordTerm lower ci line (parseLine (scan lower ci input) line).2 st t).matchingContents
        = st.matchingContents ∧
      (recordTerm lower ci line (parseLine (scan lower ci input) line).2 st t).matchingFileNames
        = st.matchingFileNames ∧
      (recordTerm lower ci line (parseLine (scan lower ci input) line).2 st t).matchingFiles
        = st.matchingFiles) ∧
    (st.curFile = [] → st.curCommit = [] →
      recordTerm lower ci line (parseLine (scan lower ci input) line).2 st t = st) := by
  have hinv : st.curFile = [] ∨ st.curCommit = [] := by
    obtain ⟨e1, e2⟩ := foldl_recordTerm_ctx lower ci line (parseLine (scan lower ci input) line).2
      pre (parseLine (scan lower ci input) line).1
    rw [hst, e1, e2]
    exact (parseLine_inv _ line (scanFrom_inv lower ci input State.init (Or.inl rfl))).symm
  refine ⟨hinv, fun hf => ?_, fun hc => ?_, fun hf hc => ?_⟩
  · have hc : st.curCommit = [] := hinv.resolve_left hf
    rw [recordTerm_eq]
    dsimp only
    simp only [hm, hc, Bool.true_and, ne_eq, not_true_eq_false, decide_False, Bool.false_eq_true,
      if_false, and_true]
    cases (parseLine (scan lower ci input) line).2
    · simp only [Bool.false_eq_true, if_false, hf, ne_eq, not_false_eq_true, decide_True,
        Bool.not_false, Bool.and_self, if_true]
      exact (mem_addMatch _ _ _ _ _).2 (Or.inl ⟨rfl, rfl⟩)
    · simp only [if_true, hf, ne_eq, not_false_eq_true, decide_True, Bool.and_self]
      exact (mem_addMatch _ _ _ _ _).2 (Or.inl ⟨rfl, rfl⟩)
  · have hf : st.curFile = [] := hinv.resolve_right hc
    rw [recordTerm_eq]
    dsimp only
    simp only [hm, hf, hc, Bool.true_and, ne_eq, not_true_eq_false, decide_False,
      Bool.false_eq_true, if_false, not_false_eq_true, decide_True, if_true, Bool.false_and,
      and_true]
    exact (mem_addMatch _ _ _ _ _).2 (Or.inl ⟨rfl, rfl⟩)
  · exact recordTerm_of_empty_ctx lower ci line _ st t hf hc

theorem recording_branches_witness :
    stringContains Char.toLower "+token = 42".toList "token".toList false = true ∧
    ((parseLine (scan Char.toLower false [("diff --git a/s.txt b/s.txt".toList, [])])
      "+token = 42".toList).1.curFile = [] ∨
     (parseLine (scan Char.toLower false [("diff --git a/s.txt b/s.txt".toList, [])])
      "+token = 42".toList).1.curCommit = []) :=
  ⟨by decide,
    (recording_branches Char.toLower false [("diff --git a/s.txt b/s.txt".toList, [])]
      "+token = 42".toList [] "token".toList _ rfl (by decide)).1⟩

/-! ## The planner -/

/-- The output of the loop over the files with a name match: the header once,
before the first file that is not deleted, and what each such file prints. -/
theorem foldl_renameStep (pairs : List (Str × Str)) (mf : GoMap Bool) (keys : List Str)
    (acc : Bool × List Str) :
    keys.foldl (renameStep pairs mf) acc =
      (acc.1 || !(keys.filter (fun f => !isDeleted mf f)).isEmpty,
        acc.2
          ++ (if acc.1 = false ∧ keys.filter (fun f => !isDeleted mf f) ≠ []
              then ["git-filter-repo \\\n".toList] else [])
          ++ (keys.filter (fun f => !isDeleted mf f)).flatMap (renameDirective pairs)) := by
  induction keys generalizing acc with
  | nil => simp
  | cons f ks ih =>
    rw [List.foldl_cons, ih]
    unfold renameStep
    obtain ⟨flag, out⟩ := acc
    cases hd : isDeleted mf f
    · cases flag <;> simp [hd, List.filter_cons]
    · simp [hd, List.filter_cons]

theorem nameRemediation_eq (pairs : List (Str × Str)) (mf : GoMap Bool) (names : GoMap GoSet) :
    nameRemediation pairs mf names =
      if (mapKeys names).filter (fun f => !isDeleted mf f) = [] then []
      else "git-filter-repo \\\n".toList ::
        ((mapKeys names).filter (fun f => !isDeleted mf f)).flatMap (renameDirective pairs) := by
  unfold nameRemediation
  by_cases hn : names.length > 0
  · rw [if_pos hn, foldl_renameStep]
    by_cases hf : (mapKeys names).filter (fun f => !isDeleted mf f) = []
    · simp [hf]
    · simp [hf]
  · have he : names = [] := List.length_eq_zero.1 (by omega)
    subst he
    simp [mapKeys]

/-- The two lists of the files with a content match. -/
theorem partitionFiles_eq (mf : GoMap Bool) (mc : GoMap GoSet) :
    partitionFiles mf mc =
      ((mc.filter (fun e => isDeleted mf e.1)).map (fun e => { name := e.1, terms := e.2 }),
        (mc.filter (fun e => !isDeleted mf e.1)).map (fun e => { name := e.1, terms := e.2 })) := by
  have gen : ∀ (l : GoMap GoSet) (acc : List FileMatch × List FileMatch),
      l.foldl
        (fun acc e =>
          let fm : FileMatch := { name := e.1, terms := e.2 }
          if isDeleted mf e.1 then (acc.1 ++ [fm], acc.2) else (acc.1, acc.2 ++ [fm])) acc
      = (acc.1 ++ (l.filter (fun e => isDeleted mf e.1)).map
            (fun e => { name := e.1, terms := e.2 }),
          acc.2 ++ (l.filter (fun e => !isDeleted mf e.1)).map
            (fun e => { name := e.1, terms := e.2 })) := by
    intro l
    induction l with
    | nil => intro acc; simp
    | cons e rest ih =>
      intro acc
      rw [List.foldl_cons, ih]
      cases hd : isDeleted mf e.1 <;> simp [hd, List.filter_cons]
  unfold partitionFiles
  rw [gen]
  simp

theorem replaceTextLine_ne_of_space (rf l : Str) : replaceTextLine rf ≠ ' ' :: l := by
  unfold replaceTextLine
  simp


theorem replaceTextLine_not_mem_nameRemediation (rf : Str) (pairs : List (Str × Str))
    (mf : GoMap Bool) (names : GoMap GoSet) :
    replaceTextLine rf ∉ nameRemediation pairs mf names := by
  rw [nameRemediation_eq]
  split_ifs
  · simp
  · rw [List.mem_cons, List.mem_flatMap]
    rintro (h | ⟨f, _, hf⟩)
    · revert h
      unfold replaceTextLine
      simp
    · unfold renameDirective at hf
      dsimp only at hf
      split_ifs at hf
      · rw [List.mem_singleton] at hf
        exact replaceTextLine_ne_of_space rf _ hf
      · simp at hf

theorem replaceTextLine_not_mem_deletedReport (rf : Str) (deletedFiles : List FileMatch) :
    replaceTextLine rf ∉ deletedReport deletedFiles := by
  unfold deletedReport
  split_ifs
  · simp only [List.mem_append, List.mem_singleton, List.mem_map, not_or, not_exists, not_and]
    refine ⟨⟨⟨?_, fun fm _ h => replaceTextLine_ne_of_space rf _ h.symm⟩, ?_⟩,
      fun fm _ h => replaceTextLine_ne_of_space rf _ h.symm⟩
    · unfold replaceTextLine
      simp
    · unfold replaceTextLine
      simp
  · simp

theorem replaceTextLine_not_mem_commitReport (rf rf2 : Str) (commits : GoMap GoSet) :
    replaceTextLine rf ∉ commitReport rf2 commits := by
  unfold commitReport
  split_ifs
  · simp only [List.mem_append, List.mem_singleton, List.mem_map, not_or, not_exists, not_and]
    refine ⟨⟨?_, fun e _ h => replaceTextLine_ne_of_space rf _ h.symm⟩, ?_⟩
    · unfold replaceTextLine
      simp
    · unfold replaceTextLine
      simp
  · simp only [List.mem_append, List.mem_singleton, List.mem_map, not_or, not_exists, not_and,
      List.append_nil]
    refine ⟨?_, fun e _ h => replaceTextLine_ne_of_space rf _ h.symm⟩
    unfold replaceTextLine
    simp
  · simp

theorem count_replaceTextLine_notDeletedReport (rf : Str) (notDeletedFiles : List FileMatch) :
    (notDeletedReport rf notDeletedFiles).count (replaceTextLine rf)
      = if rf ≠ [] ∧ notDeletedFiles ≠ [] then 1 else 0 := by
  have hhead : (["Not deleted files:\n".toList]
      ++ notDeletedFiles.map (fun fm => matchLine fm.name fm.termsString)).count
        (replaceTextLine rf) = 0 := by
    rw [List.count_eq_zero]
    simp only [List.mem_append, List.mem_singleton, List.mem_map, not_or, not_exists, not_and]
    refine ⟨?_, fun fm _ h => replaceTextLine_ne_of_space rf _ h.symm⟩
    unfold replaceTextLine
    simp
  unfold notDeletedReport
  by_cases hn : notDeletedFiles.length > 0
  · have hne : notDeletedFiles ≠ [] := fun e => by rw [e] at hn; exact absurd hn (by decide)
    rw [if_pos hn, List.count_append, hhead]
    by_cases hr : rf = []
    · simp [hr]
    · simp [hr, hne]
  · have he : notDeletedFiles = [] := List.length_eq_zero.1 (by omega)
    simp [he]

/-- How often the plan holds the `--replace-text` line. -/
theorem count_replaceTextLine_plan (rf : Str) (pairs : List (Str × Str)) (mf : GoMap Bool)
    (names contents commits : GoMap GoSet) :
    (plan rf pairs mf names contents commits).count (replaceTextLine rf)
      = if rf ≠ [] ∧ contents.filter (fun e => !isDeleted mf e.1) ≠ [] then 1 else 0 := by
  unfold plan
  rw [List.count_append, List.count_append, List.count_append,
    List.count_eq_zero.2 (replaceTextLine_not_mem_nameRemediation rf pairs mf names),
    List.count_eq_zero.2 (replaceTextLine_not_mem_deletedReport rf _),
    List.count_eq_zero.2 (replaceTextLine_not_mem_commitReport rf rf commits),
    count_replaceTextLine_notDeletedReport, partitionFiles_eq]
  simp only [Nat.zero_add, Nat.add_zero, ne_eq, List.map_eq_nil_iff]

theorem filter_not_deleted_ne_nil_iff (mf : GoMap Bool) (contents : GoMap GoSet) :
    contents.filter (fun e => !isDeleted mf e.1) ≠ [] ↔
      ∃ f ∈ mapKeys contents, isDeleted mf f = false := by
  unfold mapKeys
  rw [Ne, List.filter_eq_nil_iff]
  simp

/-- The report of the deleted files lists the deleted keys of
`matchingContents`, and no other file. -/
theorem deletedReport_partitionFiles (mf : GoMap Bool) (mc : GoMap GoSet) :
    deletedReport (partitionFiles mf mc).1 =
      if mc.filter (fun e => isDeleted mf e.1) = [] then []
      else ["Deleted files:\n".toList]
        ++ (mc.filter (fun e => isDeleted mf e.1)).map
            (fun e => matchLine e.1 (getKeysString e.2))
        ++ ["git-filter-repo --invert-paths \\\n".toList]
        ++ (mc.filter (fun e => isDeleted mf e.1)).map (fun e => pathLine e.1) := by
  rw [partitionFiles_eq]
  unfold deletedReport
  by_cases h : mc.filter (fun e => isDeleted mf e.1) = []
  · simp [h]
  · have hl : ((mc.filter (fun e => isDeleted mf e.1)).map
        (fun e => ({ name := e.1, terms := e.2 } : FileMatch))).length > 0 := by
      rw [List.length_map]
      exact List.length_pos.2 h
    rw [if_pos hl, if_neg h, List.map_map, List.map_map]
    rfl

/-- C11, the code at the failing input: the file `foo.txt` is added empty and
deleted later, so the term `foo` matches its header lines only.  The file has a
name match and is classified deleted, and the plan is empty: no `--path`
directive, no `--invert-paths` invocation and no report line.  In general the
report of the deleted files is built from the keys of `matchingContents`
alone. -/
theorem deleted_file_with_name_match_only :
    mapKeys (scanText Char.toLower false ["foo".toList]
      ("commit 3f2a9c\ndiff --git a/foo.txt b/foo.txt\nnew file mode 100644\n" ++
        "index 0000000..e69de29\ncommit 77ab01\ndiff --git a/foo.txt b/foo.txt\n" ++
        "deleted file mode 100644\nindex e69de29..0000000").toList).matchingFileNames
      = ["foo.txt".toList] ∧
    isDeleted
      (classify (fun _ => true) ["foo.txt".toList]
        (scanText Char.toLower false ["foo".toList]
          ("commit 3f2a9c\ndiff --git a/foo.txt b/foo.txt\nnew file mode 100644\n" ++
            "index 0000000..e69de29\ncommit 77ab01\ndiff --git a/foo.txt b/foo.txt\n" ++
            "deleted file mode 100644\nindex e69de29..0000000").toList).matchingFiles)
      "foo.txt".toList = true ∧
    mainPlan Char.toLower false (fun _ => true) "map.txt".toList
      [("foo".toList, "bar".toList)]
      ("commit 3f2a9c\ndiff --git a/foo.txt b/foo.txt\nnew file mode 100644\n" ++
        "index 0000000..e69de29\ncommit 77ab01\ndiff --git a/foo.txt b/foo.txt\n" ++
        "deleted file mode 100644\nindex e69de29..0000000").toList = [] ∧
    (∀ (mf : GoMap Bool) (mc : GoMap GoSet),
      deletedReport (partitionFiles mf mc).1 =
        if mc.filter (fun e => isDeleted mf e.1) = [] then []
        else ["Deleted files:\n".toList]
          ++ (mc.filter (fun e => isDeleted mf e.1)).map
              (fun e => matchLine e.1 (getKeysString e.2))
          ++ ["git-filter-repo --invert-paths \\\n".toList]
          ++ (mc.filter (fun e => isDeleted mf e.1)).map (fun e => pathLine e.1)) := by
  refine ⟨by decide, by decide, by decide, deletedReport_partitionFiles⟩

/-- C12, the code at the failing input: the commit renames `secret.txt` to
`public.txt`, so the term `secret` matches the header line of the file
`public.txt`, which is not deleted and whose name does not hold the term.  The
header `git-filter-repo \` is printed and no `--path-rename` directive follows
it.  In general the header is printed, once, exactly when some file with a
name match is not classified deleted, whether or not a directive follows. -/
theorem rename_header_without_directive :
    mainPlan Char.toLower false (fun _ => false) "map.txt".toList
      [("secret".toList, "hidden".toList)]
      ("commit 3f2a9c\ndiff --git a/secret.txt b/public.txt\nsimilarity index 100%\n" ++
        "rename from secret.txt\nrename to public.txt").toList
      = ["git-filter-repo \\\n".toList, "Not deleted files:\n".toList,
         "  public.txt matches secret\n".toList,
         "git-filter-repo --replace-text map.txt\n".toList] ∧
    (∀ (pairs : List (Str × Str)) (mf : GoMap Bool) (names : GoMap GoSet),
      nameRemediation pairs mf names =
        if (mapKeys names).filter (fun f => !isDeleted mf f) = [] then []
        else "git-filter-repo \\\n".toList ::
          ((mapKeys names).filter (fun f => !isDeleted mf f)).flatMap
            (renameDirective pairs)) := by
  refine ⟨by decide, nameRemediation_eq⟩

theorem renameDirective_single (old new f : Str) :
    renameDirective [(old, new)] f =
      if contains f old = true ∧ replaceAll f old new ≠ f
      then [renameLine f (replaceAll f old new)] else [] := by
  unfold renameDirective renameCandidate
  simp only [List.foldl_cons, List.foldl_nil]
  by_cases hc : contains f old = true
  · simp only [hc, if_true, true_and]
  · simp only [hc, Bool.false_eq_true, if_false, false_and, ne_eq, not_true_eq_false]

theorem mem_nameRemediation (pairs : List (Str × Str)) (mf : GoMap Bool) (names : GoMap GoSet)
    (f l : Str) (hf : f ∈ mapKeys names) (hd : isDeleted mf f = false)
    (hl : l ∈ renameDirective pairs f) : l ∈ nameRemediation pairs mf names := by
  have hmem : f ∈ (mapKeys names).filter (fun f => !isDeleted mf f) := by
    rw [List.mem_filter]
    exact ⟨hf, by simp [hd]⟩
  rw [nameRemediation_eq, if_neg (List.ne_nil_of_mem hmem)]
  exact List.mem_cons_of_mem _ (List.mem_flatMap.2 ⟨f, hmem, hl⟩)

/-- C13: with the single pair `old -> new`, the loop body of a file `f` that
is not deleted prints the directive `--path-rename f:f2`, where `f2` is `f`
with `old` replaced by `new`, if `old` occurs in `f` and `f2` differs from `f`,
and prints no directive otherwise; the directive is then part of the plan.  The
loop body of a deleted file prints nothing.  For `foo.txt`, `foo`, `bar` the
directive is `foo.txt:bar.txt`. -/
theorem rename_directive_single_pair :
    (∀ old new f : Str, old <:+: f → replaceAll f old new ≠ f →
      renameDirective [(old, new)] f = [renameLine f (replaceAll f old new)]) ∧
    (∀ old new f : Str, ¬ (old <:+: f ∧ replaceAll f old new ≠ f) →
      renameDirective [(old, new)] f = []) ∧
    (∀ (old new rf : Str) (mf : GoMap Bool) (names contents commits : GoMap GoSet) (f : Str),
      f ∈ mapKeys names → isDeleted mf f = false → old <:+: f → replaceAll f old new ≠ f →
      renameLine f (replaceAll f old new) ∈ plan rf [(old, new)] mf names contents commits) ∧
    (∀ (pairs : List (Str × Str)) (mf : GoMap Bool) (acc : Bool × List Str) (f : Str),
      isDeleted mf f = true → renameStep pairs mf acc f = acc) ∧
    renameDirective [("foo".toList, "bar".toList)] "foo.txt".toList
      = ["  --path-rename foo.txt:bar.txt \\\n".toList] ∧
    mainPlan Char.toLower false (fun _ => false) "map.txt".toList
      [("foo".toList, "bar".toList)]
      "commit 3f2a9c\ndiff --git a/foo.txt b/foo.txt\nindex 0000000..e69de29".toList
      = ["git-filter-repo \\\n".toList, "  --path-rename foo.txt:bar.txt \\\n".toList] := by
  refine ⟨fun old new f h1 h2 => ?_, fun old new f h => ?_,
    fun old new rf mf names contents commits f hf hd h1 h2 => ?_,
    fun pairs mf acc f hd => ?_, by decide, by decide⟩
  · rw [renameDirective_single, if_pos ⟨(contains_iff_substring f old).2 h1, h2⟩]
  · rw [renameDirective_single, if_neg]
    rw [contains_iff_substring]
    exact h
  · unfold plan
    refine List.mem_append_left _ (List.mem_append_left _ (List.mem_append_left _ ?_))
    refine mem_nameRemediation _ mf names f _ hf hd ?_
    rw [renameDirective_single, if_pos ⟨(contains_iff_substring f old).2 h1, h2⟩]
    exact List.mem_singleton.2 rfl
  · unfold renameStep
    rw [if_pos hd]

theorem rename_directive_single_pair_witness :
    "foo".toList <:+: "foo.txt".toList ∧
    replaceAll "foo.txt".toList "foo".toList "bar".toList ≠ "foo.txt".toList ∧
    renameDirective [("foo".toList, "bar".toList)] "foo.txt".toList
      = [renameLine "foo.txt".toList (replaceAll "foo.txt".toList "foo".toList "bar".toList)] :=
  ⟨by decide, by decide,
    rename_directive_single_pair.1 "foo".toList "bar".toList "foo.txt".toList
      (by decide) (by decide)⟩

/-- C14, as stated, fails: with the pairs `foo -> bar` and `bar -> baz` the
candidate for `foo_bar.txt` is `baz_baz.txt` when `foo` is visited first and
`bar_baz.txt` when `bar` is visited first. -/
theorem rename_candidate_order_dependent :
    [("foo".toList, "bar".toList), ("bar".toList, "baz".toList)].Perm
      [("bar".toList, "baz".toList), ("foo".toList, "bar".toList)] ∧
    renameCandidate [("foo".toList, "bar".toList), ("bar".toList, "baz".toList)]
      "foo_bar.txt".toList = "baz_baz.txt".toList ∧
    renameCandidate [("bar".toList, "baz".toList), ("foo".toList, "bar".toList)]
      "foo_bar.txt".toList = "bar_baz.txt".toList := by
  decide

/-- C14, amended: the candidate new path is the same for every order in which
the pairs are visited, provided the replacements of the pairs whose term occurs
in the original path commute with one another; this holds in particular when
at most one pair of the Term Set has a term that occurs in the path. -/
theorem rename_candidate_order_independent :
    (∀ (pairs1 pairs2 : List (Str × Str)) (f : Str), pairs1.Perm pairs2 →
      (∀ p ∈ pairs1, ∀ q ∈ pairs1, contains f p.1 = true → contains f q.1 = true →
        ∀ s : Str, replaceAll (replaceAll s p.1 p.2) q.1 q.2
          = replaceAll (replaceAll s q.1 q.2) p.1 p.2) →
      renameCandidate pairs1 f = renameCandidate pairs2 f) ∧
    (∀ (pairs1 pairs2 : List (Str × Str)) (f : Str), pairs1.Perm pairs2 →
      (∀ p ∈ pairs1, ∀ q ∈ pairs1, contains f p.1 = true → contains f q.1 = true → p = q) →
      renameCandidate pairs1 f = renameCandidate pairs2 f) := by
  have main : ∀ (pairs1 pairs2 : List (Str × Str)) (f : Str), pairs1.Perm pairs2 →
      (∀ p ∈ pairs1, ∀ q ∈ pairs1, contains f p.1 = true → contains f q.1 = true →
        ∀ s : Str, replaceAll (replaceAll s p.1 p.2) q.1 q.2
          = replaceAll (replaceAll s q.1 q.2) p.1 p.2) →
      renameCandidate pairs1 f = renameCandidate pairs2 f := by
    intro pairs1 pairs2 f hp hcomm
    unfold renameCandidate
    refine List.Perm.foldl_eq' hp (fun p hpm q hqm s => ?_) f
    by_cases h1 : contains f p.1 = true <;> by_cases h2 : contains f q.1 = true
    · simp only [h1, h2, if_true]
      exact hcomm p hpm q hqm h1 h2 s
    · simp only [h1, h2, if_true, Bool.false_eq_true, if_false]
    · simp only [h1, h2, if_true, Bool.false_eq_true, if_false]
    · simp only [h1, h2, Bool.false_eq_true, if_false]
  refine ⟨main, fun pairs1 pairs2 f hp h => main pairs1 pairs2 f hp ?_⟩
  intro p hpm q hqm h1 h2 s
  rw [h p hpm q hqm h1 h2]

theorem rename_candidate_order_independent_witness :
    [("foo".toList, "bar".toList), ("zzz".toList, "baz".toList)].Perm
      [("zzz".toList, "baz".toList), ("foo".toList, "bar".toList)] ∧
    renameCandidate [("foo".toList, "bar".toList), ("zzz".toList, "baz".toList)]
      "foo_bar.txt".toList
      = renameCandidate [("zzz".toList, "baz".toList), ("foo".toList, "bar".toList)]
        "foo_bar.txt".toList :=
  ⟨by decide,
    rename_candidate_order_independent.2 _ _ "foo_bar.txt".toList (by decide) (by decide)⟩

/-- C15: the plan holds the line `git-filter-repo --replace-text <map file>`
once when a replacement file was given and some file with a content match is
not classified deleted, and not at all otherwise; so there is no such line when
every file with a content match is deleted (Scenario A) or the run uses
`--lookup`. -/
theorem replace_text_directive :
    (∀ (rf : Str) (pairs : List (Str × Str)) (mf : GoMap Bool)
      (names contents commits : GoMap GoSet),
      rf ≠ [] → (∃ f ∈ mapKeys contents, isDeleted mf f = false) →
      (plan rf pairs mf names contents commits).count (replaceTextLine rf) = 1) ∧
    (∀ (rf : Str) (pairs : List (Str × Str)) (mf : GoMap Bool)
      (names contents commits : GoMap GoSet),
      ¬ (rf ≠ [] ∧ ∃ f ∈ mapKeys contents, isDeleted mf f = false) →
      (plan rf pairs mf names contents commits).count (replaceTextLine rf) = 0) ∧
    mainPlan Char.toLower false (fun f => f == "secret.txt".toList) "map.txt".toList
      [("token".toList, "xxx".toList)]
      ("commit c1\ndiff --git a/secret.txt b/secret.txt\n+token = 42\ncommit c2\n" ++
        "diff --git a/secret.txt b/secret.txt\ndeleted file mode 100644\n-token = 42").toList
      = ["Deleted files:\n".toList, "  secret.txt matches token\n".toList,
         "git-filter-repo --invert-paths \\\n".toList, "   --path secret.txt \\\n".toList] ∧
    mainPlan Char.toLower false (fun _ => false) [] [("token".toList, [])]
      "diff --git a/s.txt b/s.txt\n+token = 42".toList
      = ["Not deleted files:\n".toList, "  s.txt matches token\n".toList] := by
  refine ⟨fun rf pairs mf names contents commits hr he => ?_,
    fun rf pairs mf names contents commits h => ?_, by decide, by decide⟩
  · rw [count_replaceTextLine_plan, if_pos ⟨hr, (filter_not_deleted_ne_nil_iff mf contents).2 he⟩]
  · rw [count_replaceTextLine_plan, if_neg]
    rw [filter_not_deleted_ne_nil_iff]
    exact h

theorem replace_text_directive_witness :
    "map.txt".toList ≠ [] ∧
    (∃ f ∈ mapKeys [("s.txt".toList, ["token".toList])],
      isDeleted [("s.txt".toList, false)] f = false) ∧
    (plan "map.txt".toList [("token".toList, "xxx".toList)] [("s.txt".toList, false)] []
      [("s.txt".toList, ["token".toList])] []).count (replaceTextLine "map.txt".toList) = 1 :=
  ⟨by decide, ⟨"s.txt".toList, by decide, by decide⟩,
    replace_text_directive.1 "map.txt".toList [("token".toList, "xxx".toList)]
      [("s.txt".toList, false)] [] [("s.txt".toList, ["token".toList])] []
      (by decide) ⟨"s.txt".toList, by decide, by decide⟩⟩

/-! ## UTF-8 -/

theorem char_toNat_valid (c : Char) :
    c.toNat < 0xD800 ∨ (0xDFFF < c.toNat ∧ c.toNat < 0x110000) :=
  c.valid

/-- The first byte of an encoding is not a continuation byte, all others are. -/
theorem encodeChar_shape (c : Char) :
    ∃ h t, encodeChar c = h :: t ∧ ¬ (0x80 ≤ h ∧ h ≤ 0xBF) ∧ ∀ b ∈ t, 0x80 ≤ b ∧ b ≤ 0xBF := by
  have hv := char_toNat_valid c
  unfold encodeChar
  split_ifs with h1 h2 h3
  · exact ⟨_, _, rfl, by omega, by simp⟩
  · refine ⟨_, _, rfl, by omega, ?_⟩
    intro b hb
    simp only [List.mem_singleton] at hb
    omega
  · refine ⟨_, _, rfl, by omega, ?_⟩
    intro b hb
    simp only [List.mem_cons, List.mem_singleton, List.not_mem_nil, or_false] at hb
    omega
  · refine ⟨_, _, rfl, by omega, ?_⟩
    intro b hb
    simp only [List.mem_cons, List.mem_singleton, List.not_mem_nil, or_false] at hb
    omega

/-- No encoding is the start of another one: equal byte strings that start
with an encoding start with the same code point. -/
theorem encodeChar_append_inj (c d : Char) (r s : Bytes)
    (h : encodeChar c ++ r = encodeChar d ++ s) : c = d ∧ r = s := by
  have hc := char_toNat_valid c
  have hd := char_toNat_valid d
  have key : c.toNat = d.toNat ∧ r = s := by
    unfold encodeChar at h
    split_ifs at h <;>
      simp only [List.cons_append, List.nil_append, List.cons.injEq] at h <;>
      first
        | (exfalso; omega)
        | exact ⟨by omega, by tauto⟩
  exact ⟨char_toNat_inj c d key.1, key.2⟩

theorem decodeRune_encodeChar (c : Char) (rest : Bytes) :
    decodeRune (encodeChar c ++ rest) = (c, (encodeChar c).length) := by
  have hv := char_toNat_valid c
  unfold encodeChar
  split_ifs with h1 h2 h3
  · simp only [List.cons_append, List.nil_append, decodeRune, h1, if_true, Char.ofNat_toNat,
      List.length_singleton]
  · have a1 : ¬ (0xC0 + c.toNat / 64 < 0x80) := by omega
    have a2 : ¬ (0xC0 + c.toNat / 64 < 0xC2 ∨ 0xF4 < 0xC0 + c.toNat / 64) := by omega
    have a3 : ¬ (0xC0 + c.toNat / 64 = 0xE0) := by omega
    have a4 : ¬ (0xC0 + c.toNat / 64 = 0xF0) := by omega
    have a5 : ¬ (0xC0 + c.toNat / 64 = 0xED) := by omega
    have a6 : ¬ (0xC0 + c.toNat / 64 = 0xF4) := by omega
    have a7 : ¬ (0x80 + c.toNat % 64 < 0x80 ∨ 0xBF < 0x80 + c.toNat % 64) := by omega
    have a8 : 0xC0 + c.toNat / 64 < 0xE0 := by omega
    have a9 : (0xC0 + c.toNat / 64 - 0xC0) * 64 + (0x80 + c.toNat % 64 - 0x80) = c.toNat := by
      omega
    simp only [List.cons_append, List.nil_append, decodeRune, a1, a2, a3, a4, a5, a6, a7, a8, a9,
      if_true, if_false, Char.ofNat_toNat, List.length_cons, List.length_nil]
  · have a1 : ¬ (0xE0 + c.toNat / 4096 < 0x80) := by omega
    have a2 : ¬ (0xE0 + c.toNat / 4096 < 0xC2 ∨ 0xF4 < 0xE0 + c.toNat / 4096) := by omega
    have a4 : ¬ (0xE0 + c.toNat / 4096 = 0xF0) := by omega
    have a6 : ¬ (0xE0 + c.toNat / 4096 = 0xF4) := by omega
    have a7 : ¬ (0x80 + c.toNat / 64 % 64 <
        (if 0xE0 + c.toNat / 4096 = 0xE0 then 0xA0 else 0x80) ∨
        (if 0xE0 + c.toNat / 4096 = 0xED then 0x9F else 0xBF) < 0x80 + c.toNat / 64 % 64) := by
      split_ifs <;> omega
    have a8 : ¬ (0xE0 + c.toNat / 4096 < 0xE0) := by omega
    have a9 : ¬ (0x80 + c.toNat % 64 < 0x80 ∨ 0xBF < 0x80 + c.toNat % 64) := by omega
    have a10 : 0xE0 + c.toNat / 4096 < 0xF0 := by omega
    have a11 : (0xE0 + c.toNat / 4096 - 0xE0) * 4096 + (0x80 + c.toNat / 64 % 64 - 0x80) * 64
        + (0x80 + c.toNat % 64 - 0x80) = c.toNat := by omega
    simp only [List.cons_append, List.nil_append, decodeRune, a1, a2, a4, a6, a7, a8, a9, a10,
      a11, if_true, if_false, Char.ofNat_toNat, List.length_cons, List.length_nil]
  · have a1 : ¬ (0xF0 + c.toNat / 262144 < 0x80) := by omega
    have a2 : ¬ (0xF0 + c.toNat / 262144 < 0xC2 ∨ 0xF4 < 0xF0 + c.toNat / 262144) := by omega
    have a3 : ¬ (0xF0 + c.toNat / 262144 = 0xE0) := by omega
    have a5 : ¬ (0xF0 + c.toNat / 262144 = 0xED) := by omega
    have a7 : ¬ (0x80 + c.toNat / 4096 % 64 <
        (if 0xF0 + c.toNat / 262144 = 0xF0 then 0x90 else 0x80) ∨
        (if 0xF0 + c.toNat / 262144 = 0xF4 then 0x8F else 0xBF)
          < 0x80 + c.toNat / 4096 % 64) := by
      split_ifs <;> omega
    have a8 : ¬ (0xF0 + c.toNat / 262144 < 0xE0) := by omega
    have a9 : ¬ (0x80 + c.toNat / 64 % 64 < 0x80 ∨ 0xBF < 0x80 + c.toNat / 64 % 64) := by omega
    have a10 : ¬ (0xF0 + c.toNat / 262144 < 0xF0) := by omega
    have a11 : ¬ (0x80 + c.toNat % 64 < 0x80 ∨ 0xBF < 0x80 + c.toNat % 64) := by omega
    have a12 : (0xF0 + c.toNat / 262144 - 0xF0) * 262144 + (0x80 + c.toNat / 4096 % 64 - 0x80) * 4096
        + (0x80 + c.toNat / 64 % 64 - 0x80) * 64 + (0x80 + c.toNat % 64 - 0x80) = c.toNat := by
      omega
    simp only [List.cons_append, List.nil_append, decodeRune, a1, a2, a3, a5, a7, a8, a9, a10, a11,
      a12, if_true, if_false, Char.ofNat_toNat, List.length_cons, List.length_nil]

theorem mapRunesAux_skip (lower : Char → Char) (t rest : Bytes) :
    mapRunesAux lower (t ++ rest) t.length = mapRunesAux lower rest 0 := by
  induction t with
  | nil =>
    cases rest <;> rfl
  | cons b t ih =>
    show mapRunesAux lower (b :: (t ++ rest)) (t.length + 1) = _
    rw [mapRunesAux, ih]

theorem mapRunesAux_encodeChar (lower : Char → Char) (c : Char) (rest : Bytes) :
    mapRunesAux lower (encodeChar c ++ rest) 0
      = encodeChar (lower c) ++ mapRunesAux lower rest 0 := by
  have hd := decodeRune_encodeChar c rest
  obtain ⟨h, t, he, _, _⟩ := encodeChar_shape c
  rw [he] at hd ⊢
  show mapRunesAux lower (h :: (t ++ rest)) 0 = _
  rw [mapRunesAux]
  have hd2 : decodeRune (h :: (t ++ rest)) = (c, (h :: t).length) := hd
  rw [hd2]
  show encodeChar (lower c) ++ mapRunesAux lower (t ++ rest) (t.length + 1 - 1) = _
  rw [Nat.add_sub_cancel, mapRunesAux_skip]

/-- On the bytes of a text, `strings.Map(unicode.ToLower, s)` is the text with
every code point lowered. -/
theorem mapRunesAux_utf8 (lower : Char → Char) (s : Str) :
    mapRunesAux lower (utf8 s) 0 = utf8 (s.map lower) := by
  induction s with
  | nil => rfl
  | cons c rest ih =>
    show mapRunesAux lower (encodeChar c ++ utf8 rest) 0
      = encodeChar (lower c) ++ utf8 (rest.map lower)
    rw [mapRunesAux_encodeChar, ih]

theorem encodeChar_ascii (c : Char) (h : c.toNat < 0x80) : encodeChar c = [c.toNat] := by
  unfold encodeChar
  rw [if_pos h]

theorem utf8_all_ascii_iff (s : Str) :
    (utf8 s).all (fun b => b < 0x80) = true ↔ ∀ c ∈ s, c.toNat < 0x80 := by
  induction s with
  | nil => simp [utf8]
  | cons c rest ih =>
    have hsplit : utf8 (c :: rest) = encodeChar c ++ utf8 rest := rfl
    rw [hsplit, List.all_append, Bool.and_eq_true, ih]
    have hhead : (encodeChar c).all (fun b => b < 0x80) = true ↔ c.toNat < 0x80 := by
      have hv := char_toNat_valid c
      unfold encodeChar
      split_ifs with h1 h2 h3
      · simp [h1]
      · simp only [List.all_cons, List.all_nil, Bool.and_true, Bool.and_eq_true,
          decide_eq_true_eq]
        omega
      · simp only [List.all_cons, List.all_nil, Bool.and_true, Bool.and_eq_true,
          decide_eq_true_eq]
        omega
      · simp only [List.all_cons, List.all_nil, Bool.and_true, Bool.and_eq_true,
          decide_eq_true_eq]
        omega
    rw [hhead]
    simp

theorem char_toLower_toNat (c : Char) (h : c.toNat < 0x80) :
    (Char.toLower c).toNat = if 0x41 ≤ c.toNat ∧ c.toNat ≤ 0x5A then c.toNat + 0x20 else c.toNat := by
  unfold Char.toLower
  by_cases hu : c.toNat ≥ 65 ∧ c.toNat ≤ 90
  · have hv : (c.toNat + 32).isValidChar := Or.inl (by omega)
    have e1 : (Char.ofNat (c.toNat + 32)).toNat = c.toNat + 32 := by
      rw [Char.ofNat, dif_pos hv]
      rfl
    rw [if_pos hu, e1, if_pos ⟨by omega, by omega⟩]
  · rw [if_neg hu, if_neg (by omega)]

theorem map_ascii_utf8 (lower : Char → Char)
    (hlower : ∀ c : Char, c.toNat < 0x80 → lower c = c.toLower) (s : Str)
    (ha : ∀ c ∈ s, c.toNat < 0x80) :
    (utf8 s).map (fun b => if 0x41 ≤ b ∧ b ≤ 0x5A then b + 0x20 else b)
      = utf8 (s.map lower) := by
  induction s with
  | nil => rfl
  | cons c rest ih =>
    have hc : c.toNat < 0x80 := ha c (List.mem_cons_self _ _)
    have hl := char_toLower_toNat c hc
    have hlt : (Char.toLower c).toNat < 0x80 := by
      rw [hl]
      split_ifs <;> omega
    show (encodeChar c ++ utf8 rest).map _ = encodeChar (lower c) ++ utf8 (rest.map lower)
    rw [List.map_append, ih (fun d hd => ha d (List.mem_cons_of_mem _ hd)), hlower c hc,
      encodeChar_ascii c hc, encodeChar_ascii _ hlt, hl]
    rfl

/-- On the bytes of a text, `strings.ToLower` is the text with every code
point lowered, for a case mapping that is the usual one on ASCII. -/
theorem toLowerBytes_utf8 (lower : Char → Char)
    (hlower : ∀ c : Char, c.toNat < 0x80 → lower c = c.toLower) (s : Str) :
    toLowerBytes lower (utf8 s) = utf8 (toLower lower s) := by
  unfold toLowerBytes toLower
  by_cases ha : (utf8 s).all (fun b => b < 0x80) = true
  · rw [if_pos ha]
    rw [utf8_all_ascii_iff] at ha
    exact map_ascii_utf8 lower hlower s ha
  · rw [if_neg ha]
    exact mapRunesAux_utf8 lower s

theorem containsBytes_iff_substring (s substr : Bytes) :
    containsBytes s substr = true ↔ substr <:+: s := by
  induction s with
  | nil =>
    unfold containsBytes hasPrefixBytes
    rw [List.isPrefixOf_iff_prefix, List.prefix_nil, List.infix_nil]
  | cons c rest ih =>
    unfold containsBytes hasPrefixBytes
    rw [Bool.or_eq_true, List.isPrefixOf_iff_prefix, ih, List.infix_cons_iff]

theorem utf8_append (a b : Str) : utf8 (a ++ b) = utf8 a ++ utf8 b := by
  unfold utf8
  exact List.flatMap_append a b encodeChar

/-- The bytes of a text start with the bytes of another text only if the text
starts with the other text. -/
theorem utf8_head_sync (t l : Str) (h : utf8 t <+: utf8 l) : t <+: l := by
  induction t generalizing l with
  | nil => exact List.nil_prefix
  | cons c t ih =>
    obtain ⟨r, hr⟩ := h
    obtain ⟨hc, tc, hce, _, _⟩ := encodeChar_shape c
    cases l with
    | nil =>
      have h1 : utf8 (c :: t) = encodeChar c ++ utf8 t := rfl
      rw [h1, hce] at hr
      exact absurd hr (by simp [utf8])
    | cons d l =>
      have h1 : utf8 (c :: t) = encodeChar c ++ utf8 t := rfl
      have h2 : utf8 (d :: l) = encodeChar d ++ utf8 l := rfl
      rw [h1, h2, List.append_assoc] at hr
      obtain ⟨e1, e2⟩ := encodeChar_append_inj c d _ _ hr
      rw [e1]
      exact (List.prefix_cons_inj d).2 (ih l ⟨r, e2⟩)

/-- A byte string that starts with a byte that is not a continuation byte does
not start inside a run of continuation bytes. -/
theorem substring_skip_continuation (w r : Bytes) (h : Nat) (s : Bytes)
    (hw : ∀ b ∈ w, 0x80 ≤ b ∧ b ≤ 0xBF) (hh : ¬ (0x80 ≤ h ∧ h ≤ 0xBF))
    (hs : h :: s <:+: w ++ r) : h :: s <:+: r := by
  induction w with
  | nil => exact hs
  | cons b w ih =>
    have hs2 : h :: s <:+: b :: (w ++ r) := hs
    rcases List.infix_cons_iff.1 hs2 with hp | hi
    · obtain ⟨x, hx⟩ := hp
      have hb : h = b := by
        simp only [List.cons_append, List.cons.injEq] at hx
        exact hx.1
      exact absurd (hb ▸ hw b (List.mem_cons_self _ _)) hh
    · exact ih (fun b hb => hw b (List.mem_cons_of_mem _ hb)) hi

/-- The bytes of a text hold the bytes of another text exactly where the text
holds the other text. -/
theorem utf8_substring_iff (t l : Str) : utf8 t <:+: utf8 l ↔ t <:+: l := by
  constructor
  · intro h
    cases t with
    | nil => exact List.nil_infix
    | cons c t =>
      obtain ⟨hc, tc, hce, hhc, _⟩ := encodeChar_shape c
      have h1 : utf8 (c :: t) = hc :: (tc ++ utf8 t) := by
        show encodeChar c ++ utf8 t = _
        rw [hce]
        rfl
      induction l with
      | nil =>
        rw [h1] at h
        exact absurd (List.infix_nil.1 h) (by simp)
      | cons d l ih =>
        obtain ⟨hd, td, hde, _, htd⟩ := encodeChar_shape d
        have h2 : utf8 (d :: l) = hd :: (td ++ utf8 l) := by
          show encodeChar d ++ utf8 l = _
          rw [hde]
          rfl
        rw [h2] at h
        rcases List.infix_cons_iff.1 h with hp | hi
        · rw [← h2] at hp
          exact (utf8_head_sync _ _ hp).isInfix
        · rw [h1] at hi
          have hi2 := substring_skip_continuation td (utf8 l) hc _ htd hhc hi
          rw [← h1] at hi2
          exact List.infix_cons (ih hi2)
  · rintro ⟨a, b, hab⟩
    refine ⟨utf8 a, utf8 b, ?_⟩
    rw [← hab, utf8_append, utf8_append]

/-- On the bytes of two texts the match test of the program is the match test
on the code points, for a case mapping that is the usual one on ASCII. -/
theorem stringContainsBytes_utf8 (lower : Char → Char)
    (hlower : ∀ c : Char, c.toNat < 0x80 → lower c = c.toLower) (line term : Str) (ci : Bool) :
    stringContainsBytes lower (utf8 line) (utf8 term) ci = stringContains lower line term ci := by
  unfold stringContainsBytes stringContains
  rw [Bool.eq_iff_iff]
  cases ci
  · simp only [Bool.false_eq_true, if_false]
    rw [containsBytes_iff_substring, contains_iff_substring, utf8_substring_iff]
  · simp only [if_true]
    rw [toLowerBytes_utf8 lower hlower, toLowerBytes_utf8 lower hlower,
      containsBytes_iff_substring, contains_iff_substring, utf8_substring_iff]

/-! ## The case flag on byte strings -/

/-- C20, as stated, fails: the line `café` (bytes 63 61 66 C3 A9) holds the
one-byte term C3, a stray byte, so the match test without the flag is true;
`strings.ToLower` turns the stray byte of the term into U+FFFD (EF BF BD) and
leaves the line as it is, so the match test with the flag is false. -/
theorem case_flag_stray_byte :
    utf8 "café".toList = [0x63, 0x61, 0x66, 0xC3, 0xA9] ∧
    stringContainsBytes Char.toLower [0x63, 0x61, 0x66, 0xC3, 0xA9] [0xC3] false = true ∧
    toLowerBytes Char.toLower [0x63, 0x61, 0x66, 0xC3, 0xA9] = [0x63, 0x61, 0x66, 0xC3, 0xA9] ∧
    toLowerBytes Char.toLower [0xC3] = [0xEF, 0xBF, 0xBD] ∧
    stringContainsBytes Char.toLower [0x63, 0x61, 0x66, 0xC3, 0xA9] [0xC3] true = false := by
  decide

/-- C20, amended: for every line and term that are valid UTF-8 (the bytes of
two texts), a match without the case flag is a match with the flag; on such
input the match test on bytes is the match test on code points, and every
term that a run without the flag records for a file (content or name) or a
commit is recorded for the same file or commit by the run with the flag over
the same input.  The case mapping is any one that is the usual one on
ASCII. -/
theorem case_insensitive_widens_utf8 (lower : Char → Char)
    (hlower : ∀ c : Char, c.toNat < 0x80 → lower c = c.toLower) :
    (∀ line term : Str, stringContainsBytes lower (utf8 line) (utf8 term) false = true →
      stringContainsBytes lower (utf8 line) (utf8 term) true = true) ∧
    (∀ (line term : Str) (ci : Bool),
      stringContainsBytes lower (utf8 line) (utf8 term) ci
        = stringContains lower line term ci) ∧
    (∀ (input : List (Str × List Str)) (k t : Str),
      (t ∈ (mapGet (scan lower false input).matchingContents k).getD [] →
        t ∈ (mapGet (scan lower true input).matchingContents k).getD []) ∧
      (t ∈ (mapGet (scan lower false input).matchingFileNames k).getD [] →
        t ∈ (mapGet (scan lower true input).matchingFileNames k).getD []) ∧
      (t ∈ (mapGet (scan lower false input).matchingCommits k).getD [] →
        t ∈ (mapGet (scan lower true input).matchingCommits k).getD [])) := by
  refine ⟨fun line term h => ?_, stringContainsBytes_utf8 lower hlower, fun input k t => ?_⟩
  · rw [stringContainsBytes_utf8 lower hlower] at h ⊢
    exact stringContains_mono lower line term h
  · obtain ⟨h1, h2, h3⟩ := scanFrom_mono lower input State.init State.init rfl rfl
      (fun _ _ h => h) (fun _ _ h => h) (fun _ _ h => h)
    exact ⟨h1 k t, h2 k t, h3 k t⟩

theorem case_insensitive_widens_utf8_witness :
    (∀ c : Char, c.toNat < 0x80 → Char.toLower c = c.toLower) ∧
    stringContainsBytes Char.toLower (utf8 "this is Secret".toList) (utf8 "Secret".toList) false
      = true ∧
    stringContainsBytes Char.toLower (utf8 "this is Secret".toList) (utf8 "Secret".toList) true
      = true :=
  ⟨fun _ _ => rfl, by decide,
    (case_insensitive_widens_utf8 Char.toLower (fun _ _ => rfl)).1 "this is Secret".toList
      "Secret".toList (by decide)⟩

end GitHistorySearch
